import Mathlib

/-!
Verification development for the tree-node lifecycle and change-propagation
engine of the jotai-state-tree repository.

The engine is embedded shallowly: the mutable object graph of
StateTreeNode instances becomes an explicit heap mapping node ids to node
records, the jotai atom of a node becomes the `value` field of that record,
the global identifier registry becomes an explicit nested association list,
and listener invocations become an event trace accumulated in the state
(each notification records the listener set that was notified together with
the payload).  Fallible operations return Except.  Recursions that walk the
heap (parent chains, subtrees) are given explicit fuel; public wrappers pass
fuel derived from the heap size, matching the source where the object graph
is finite and acyclic.
-/

namespace JST

/-- Node identifiers: the source generates process-unique string ids; the
embedding uses natural numbers. -/
abbrev NodeId := Nat

/-- Listener identities (the source stores closures in per-node Sets; the
embedding tracks them by id). -/
abbrev LId := Nat

/-- Runtime values flowing through the tree: the JSON-like data that
snapshots, patches and storage cells carry. -/
inductive Val : Type
  | null : Val
  | bool : Bool → Val
  | num : Int → Val
  | str : String → Val
  | arr : List Val → Val
  | obj : List (String × Val) → Val

/-- Identifier values are strings or numbers in the source. -/
inductive Ident : Type
  | str : String → Ident
  | num : Int → Ident
deriving DecidableEq

/-- An identifier rendered back as a runtime value (snapshots of
reference-shaped nodes serialize the identifier). -/
def Ident.toVal : Ident → Val
  | .str s => Val.str s
  | .num n => Val.num n

/-- Shape kind of a node, from the underscore-kind tag of its type
descriptor.  All primitive and wrapper kinds behave alike in the tree
engine and are collapsed into `scalar`. -/
inductive Kind : Type
  | model | array | map | reference | scalar
deriving DecidableEq

/-- A forward JSON patch: op, path and value. -/
structure Patch : Type where
  op : String
  path : String
  value : Val

/-- A reversible JSON patch, additionally carrying oldValue.  The source
sometimes casts a forward patch to this interface (an object spread with no
oldValue property), hence the Option. -/
structure RevPatch : Type where
  op : String
  path : String
  value : Val
  oldValue : Option Val

/-- Observable notification events.  Each event records the listener set
that was iterated at that moment together with the payload delivered. -/
inductive Event : Type
  | patchNotify (nid : NodeId) (listeners : List LId) (p : Patch) (rp : RevPatch)
  | snapshotNotify (nid : NodeId) (listeners : List LId) (snap : Val)
  | lifecycle (nid : NodeId) (alive : Bool)

/-- Errors surfaced by mutating operations. -/
inductive TreeError : Type
  | deadNode (msg : String)
  | invalidPath (path : String)
  | noSuchNode
deriving DecidableEq

/-- One StateTreeNode.  Mirrors the fields of the source class that the
engine reads or writes: type name and kind, parent pointer, cached path,
liveness flag, child mapping (insertion ordered, as a JS Map), the storage
cell value (the valueAtom content), the environment, the identifier binding
fields, the optional snapshot pre/post transforms, and the two listener
sets. -/
structure Node : Type where
  typeName : String
  kind : Kind
  parent : Option NodeId
  path : String
  isAlive : Bool
  children : List (String × NodeId)
  value : Val
  env : Option Val
  identifierTypeName : Option String
  identifierValue : Option Ident
  preProcessor : Option (Val → Val)
  postProcessor : Option (Val → Val)
  snapshotListeners : List LId
  patchListeners : List LId

/-- Global engine state: the node heap, the type-partitioned identifier
registry, and the trace of notifications delivered so far. -/
structure TreeState : Type where
  nodes : List (NodeId × Node)
  registry : List (String × List (Ident × NodeId))
  events : List Event

/-! ## Association list primitives (JS Map / plain object operations) -/

/-- Lookup in an association list (Map.get). -/
def lookupA {α β : Type} [DecidableEq α] : List (α × β) → α → Option β
  | [], _ => none
  | (k, v) :: rest, a => if k = a then some v else lookupA rest a

/-- Map.set: replace the first binding in place, append when absent. -/
def updateA {α β : Type} [DecidableEq α] : List (α × β) → α → β → List (α × β)
  | [], a, b => [(a, b)]
  | (k, v) :: rest, a, b =>
      if k = a then (a, b) :: rest else (k, v) :: updateA rest a b

/-- Map.delete / the delete operator: remove the bindings for a key.  (A JS
Map holds at most one entry per key; removing every binding coincides with
removing the one entry.) -/
def removeA {α β : Type} [DecidableEq α] : List (α × β) → α → List (α × β)
  | [], _ => []
  | (k, v) :: rest, a =>
      if k = a then removeA rest a else (k, v) :: removeA rest a

/-- Remove the first binding whose VALUE matches (detach searches the
parent child map for the entry pointing at the detached node and deletes
only that one). -/
def removeFirstVal {α β : Type} [DecidableEq β] : List (α × β) → β → List (α × β)
  | [], _ => []
  | (k, v) :: rest, b => if v = b then rest else (k, v) :: removeFirstVal rest b

/-! ## Heap access -/

/-- Dereference a node id in the heap. -/
def getNode (st : TreeState) (nid : NodeId) : Option Node :=
  lookupA st.nodes nid

/-- Write a node record back to the heap. -/
def setNode (st : TreeState) (nid : NodeId) (n : Node) : TreeState :=
  { st with nodes := updateA st.nodes nid n }

/-- Update a node in the heap through a field-editing function; absent ids
are left untouched (method calls on missing objects do not occur in the
source). -/
def setNodeF (st : TreeState) (nid : NodeId) (f : Node → Node) : TreeState :=
  match getNode st nid with
  | some n => setNode st nid (f n)
  | none => st

/-- Fuel that dominates the length of any simple path in an acyclic heap. -/
def treeFuel (st : TreeState) : Nat :=
  st.nodes.length + 1

/-- Patch listener set of a node (empty when the id is dangling). -/
def patchListenersOf (st : TreeState) (nid : NodeId) : List LId :=
  match getNode st nid with
  | some n => n.patchListeners
  | none => []

/-- Snapshot listener set of a node. -/
def snapshotListenersOf (st : TreeState) (nid : NodeId) : List LId :=
  match getNode st nid with
  | some n => n.snapshotListeners
  | none => []

/-- Storage cell content of a node, as an observable projection. -/
def nodeValue (st : TreeState) (nid : NodeId) : Option Val :=
  (getNode st nid).map (fun n => n.value)

/-! ## Notification plumbing (StateTreeNode.notifyPatch / notifySnapshotChange) -/

/-- getRoot: follow parent pointers to the parentless ancestor. -/
def getRootGo : Nat → TreeState → NodeId → NodeId
  | 0, _, nid => nid
  | fuel + 1, st, nid =>
    match getNode st nid with
    | some n =>
      match n.parent with
      | some pid => getRootGo fuel st pid
      | none => nid
    | none => nid

/-- notifyPatch: invoke the patch listeners of this node, then bubble the
same pair of patches to the parent, up to the root.  Each visit is recorded
as one patchNotify event carrying the listener set iterated. -/
def notifyPatchGo : Nat → TreeState → NodeId → Patch → RevPatch → TreeState
  | 0, st, _, _, _ => st
  | fuel + 1, st, nid, p, rp =>
    match getNode st nid with
    | none => st
    | some n =>
      let st1 : TreeState :=
        { st with events := st.events ++ [Event.patchNotify nid n.patchListeners p rp] }
      match n.parent with
      | some pid => notifyPatchGo fuel st1 pid p rp
      | none => st1

/-- getSnapshotFromNode: derive the plain value of a subtree.
model: object of child snapshots, then the post transform if present;
array: map the backing list, preferring an indexed child node when one
exists; map: object of child snapshots; reference: the identifier value,
falling back to the stored value; otherwise the raw stored value. -/
def getSnapshotFromNode : Nat → TreeState → NodeId → Val
  | 0, _, _ => Val.null
  | fuel + 1, st, nid =>
    match getNode st nid with
    | none => Val.null
    | some n =>
      match n.kind with
      | Kind.model =>
        let snap := Val.obj (n.children.map
          (fun kc => (kc.1, getSnapshotFromNode fuel st kc.2)))
        match n.postProcessor with
        | some f => f snap
        | none => snap
      | Kind.array =>
        match n.value with
        | Val.arr xs =>
          Val.arr ((xs.enum).map (fun ix =>
            match lookupA n.children (toString ix.1) with
            | some cid => getSnapshotFromNode fuel st cid
            | none => ix.2))
        | v => v
      | Kind.map =>
        Val.obj (n.children.map
          (fun kc => (kc.1, getSnapshotFromNode fuel st kc.2)))
      | Kind.reference =>
        match n.identifierValue with
        | some iv => iv.toVal
        | none => n.value
      | Kind.scalar => n.value

/-- notifySnapshotChange: find the root, recompute the root snapshot, and
notify the snapshot listeners registered at the root only. -/
def notifySnapshotChange (fuel : Nat) (st : TreeState) (nid : NodeId) : TreeState :=
  let r := getRootGo fuel st nid
  let snap := getSnapshotFromNode fuel st r
  match getNode st r with
  | some rn =>
    { st with events := st.events ++ [Event.snapshotNotify r rn.snapshotListeners snap] }
  | none => st

/-! ## Storage cell write (StateTreeNode.setValue) -/

/-- setValue: reject when the liveness flag is down; otherwise write the
storage cell, synthesize the replace patch and its inverse at this path,
notify patch listeners bubbling to the root, then deliver one snapshot
notification at the root. -/
def setValue (st : TreeState) (nid : NodeId) (v : Val) : Except TreeError TreeState :=
  match getNode st nid with
  | none => Except.error TreeError.noSuchNode
  | some n =>
    if n.isAlive = false then
      Except.error (TreeError.deadNode
        "Cannot modify a node that is no longer part of the state tree.")
    else
      let oldValue := n.value
      let st1 := setNode st nid { n with value := v }
      let fwd : Patch := ⟨"replace", n.path, v⟩
      let rev : RevPatch := ⟨"replace", n.path, oldValue, some oldValue⟩
      let st2 := notifyPatchGo (treeFuel st1) st1 nid fwd rev
      Except.ok (notifySnapshotChange (treeFuel st2) st2 nid)

/-! ## Structural operations -/

/-- updatePathRecursively: set the path of a node and re-derive the path
of every node below it. -/
def updatePathRec : Nat → TreeState → NodeId → String → TreeState
  | 0, st, _, _ => st
  | fuel + 1, st, nid, newPath =>
    match getNode st nid with
    | none => st
    | some n =>
      let st1 := setNode st nid { n with path := newPath }
      n.children.foldl
        (fun s kc => updatePathRec fuel s kc.2 (newPath ++ "/" ++ kc.1))
        st1

/-- addChild: reparent the child under this node at the given key,
re-deriving the paths of its entire subtree, inheriting the environment
when the child has none, and inserting the child into the child map. -/
def addChild (st : TreeState) (pid : NodeId) (key : String) (cid : NodeId) : TreeState :=
  match getNode st pid, getNode st cid with
  | some p, some _ =>
    let st1 := setNodeF st cid (fun c => { c with parent := some pid })
    let newPath := p.path ++ "/" ++ key
    let st2 := updatePathRec (treeFuel st1) st1 cid newPath
    let st3 := setNodeF st2 cid
      (fun c => { c with env := match c.env with | some e => some e | none => p.env })
    setNodeF st3 pid (fun q => { q with children := updateA q.children key cid })
  | _, _ => st

/-- detach: remove this node from the child map of its parent (first
matching entry only), then clear its parent pointer and path.  Descendants
are not revisited. -/
def detach (st : TreeState) (nid : NodeId) : TreeState :=
  match getNode st nid with
  | none => st
  | some n =>
    match n.parent with
    | none => st
    | some pid =>
      let st1 := setNodeF st pid
        (fun p => { p with children := removeFirstVal p.children nid })
      setNodeF st1 nid (fun m => { m with parent := none, path := "" })

/-! ## Identifier registry -/

/-- registerIdentifier: remember the binding on the node, then insert it in
the type-partitioned registry (creating the partition when absent),
overwriting whatever node held that key before. -/
def registerIdentifier (st : TreeState) (nid : NodeId) (tn : String) (iv : Ident) :
    TreeState :=
  match getNode st nid with
  | none => st
  | some n =>
    let st1 := setNode st nid
      { n with identifierTypeName := some tn, identifierValue := some iv }
    let typeMap := match lookupA st1.registry tn with
      | some m => m
      | none => []
    { st1 with registry := updateA st1.registry tn (updateA typeMap iv nid) }

/-- unregisterIdentifier: when the node carries a binding, delete that key
from its type partition and prune the partition when it becomes empty. -/
def unregisterIdentifier (st : TreeState) (nid : NodeId) : TreeState :=
  match getNode st nid with
  | none => st
  | some n =>
    match n.identifierTypeName, n.identifierValue with
    | some tn, some iv =>
      match lookupA st.registry tn with
      | some typeMap =>
        let typeMap1 := removeA typeMap iv
        let registry1 :=
          if typeMap1.isEmpty then removeA st.registry tn
          else updateA st.registry tn typeMap1
        { st with registry := registry1 }
      | none => st
    | _, _ => st

/-- resolveIdentifier: synchronous lookup in the registry.  The source
dereferences a weak reference; the embedding keeps nodes in the heap, so a
present entry always dereferences. -/
def resolveIdentifier (st : TreeState) (tn : String) (iv : Ident) : Option NodeId :=
  match lookupA st.registry tn with
  | some typeMap => lookupA typeMap iv
  | none => none

/-! ## Destruction -/

/-- destroy: idempotent.  Destroy children first, clear the child map,
unregister the identifier binding, drop the liveness flag, fire lifecycle
listeners with false, and clear both listener sets.  (The id-to-node
diagnostic registry and the garbage-collection finalizers of the source
have no observable effect and are not modelled.) -/
def destroyGo : Nat → TreeState → NodeId → TreeState
  | 0, st, _ => st
  | fuel + 1, st, nid =>
    match getNode st nid with
    | none => st
    | some n =>
      if n.isAlive = false then st
      else
        let st1 := n.children.foldl (fun s kc => destroyGo fuel s kc.2) st
        let st2 := setNodeF st1 nid (fun m => { m with children := [] })
        let st3 := unregisterIdentifier st2 nid
        let st4 := setNodeF st3 nid (fun m => { m with isAlive := false })
        let st5 : TreeState :=
          { st4 with events := st4.events ++ [Event.lifecycle nid false] }
        setNodeF st5 nid
          (fun m => { m with snapshotListeners := [], patchListeners := [] })

/-- Public destroy entry point. -/
def destroy (st : TreeState) (nid : NodeId) : TreeState :=
  destroyGo (treeFuel st) st nid

/-! ## Snapshot application (applySnapshotToNode) -/

/-- The JS object test used by applySnapshotToNode: typeof yields object
for plain objects and arrays; null is excluded explicitly. -/
def isJsObject : Val → Bool
  | Val.obj _ => true
  | Val.arr _ => true
  | _ => false

/-- Array.isArray. -/
def isJsArray : Val → Bool
  | Val.arr _ => true
  | _ => false

/-- Decimal digit value of a character. -/
def charDigit? (c : Char) : Option Nat :=
  if c.toNat < 48 ∨ 57 < c.toNat then none else some (c.toNat - 48)

/-- Decimal reading of a character list (the canonical fragment of the JS
number parsing the engine relies on). -/
def digitsVal : List Char → Nat → Option Nat
  | [], acc => some acc
  | c :: rest, acc =>
    match charDigit? c with
    | some d => digitsVal rest (acc * 10 + d)
    | none => none

/-- Canonical natural-number reading of a string. -/
def strToNat? (s : String) : Option Nat :=
  match s.data with
  | [] => none
  | cs => digitsVal cs 0

/-- Canonical integer reading of a string (optional leading minus). -/
def strToInt? (s : String) : Option Int :=
  match s.data with
  | [] => none
  | c :: rest =>
    if c = Char.ofNat 45 then
      match digitsVal rest 0 with
      | some v => if rest.isEmpty then none else some (-(v : Int))
      | none => none
    else
      match digitsVal (c :: rest) 0 with
      | some v => some (v : Int)
      | none => none

/-- The JS key-membership test on the incoming value: own keys of a plain
object; for an array, the canonical index strings and the length property.
(The source only reaches the array case when a model node receives an
array.) -/
def hasKeyJs (s : Val) (k : String) : Bool :=
  match s with
  | Val.obj fs => fs.any (fun kv => kv.1 = k)
  | Val.arr xs =>
    (k = "length") ||
      (match strToNat? k with
       | some i => decide (i < xs.length)
       | none => false)
  | _ => false

/-- Property read on the incoming value, used for the recursive call. -/
def jsGet (s : Val) (k : String) : Val :=
  match s with
  | Val.obj fs =>
    match lookupA fs k with
    | some v => v
    | none => Val.null
  | Val.arr xs =>
    if k = "length" then Val.num xs.length
    else
      match strToNat? k with
      | some i => xs.getD i Val.null
      | none => Val.null
  | _ => Val.null

/-- The model-node merge loop: walk the existing children in order and
recurse (through the snapshot application one fuel level down, passed in
as rec) exactly into those whose key is present in the incoming value. -/
def applyModelChildrenAux
    (rec : TreeState → NodeId → Val → Except TreeError TreeState) :
    TreeState → List (String × NodeId) → Val → Except TreeError TreeState
  | st, [], _ => Except.ok st
  | st, (k, cid) :: rest, s =>
    if hasKeyJs s k then
      match rec st cid (jsGet s k) with
      | Except.error e => Except.error e
      | Except.ok st1 => applyModelChildrenAux rec st1 rest s
    else
      applyModelChildrenAux rec st rest s

/-- applySnapshotToNode: reject dead targets; apply the pre transform when
present; for a model node receiving an object, recurse into each existing
child whose key occurs in the incoming value (a merge); arrays and maps
receiving matching shapes delegate to setValue, as does every other
combination. -/
def applySnapshotToNode : Nat → TreeState → NodeId → Val → Except TreeError TreeState
  | 0, st, _, _ => Except.ok st
  | fuel + 1, st, nid, s =>
    match getNode st nid with
    | none => Except.error TreeError.noSuchNode
    | some n =>
      if n.isAlive = false then
        Except.error (TreeError.deadNode "Cannot apply snapshot to a dead node")
      else
        let s1 := match n.preProcessor with
          | some f => f s
          | none => s
        if n.kind = Kind.model ∧ isJsObject s1 = true then
          applyModelChildrenAux (applySnapshotToNode fuel) st n.children s1
        else if n.kind = Kind.array ∧ isJsArray s1 = true then
          setValue st nid s1
        else if n.kind = Kind.map ∧ isJsObject s1 = true then
          setValue st nid s1
        else
          setValue st nid s1

/-- The merge loop at a given fuel level. -/
def applyModelChildren (fuel : Nat) : TreeState → List (String × NodeId) → Val →
    Except TreeError TreeState :=
  applyModelChildrenAux (applySnapshotToNode fuel)

/-- Conjunction of a liveness check over a child list. -/
def allAliveChildrenAux (rec : TreeState → NodeId → Bool) :
    TreeState → List (String × NodeId) → Bool
  | _, [] => true
  | st, (_, cid) :: rest => rec st cid && allAliveChildrenAux rec st rest

/-- Every node of the subtree exists and carries the liveness flag. -/
def allAliveF : Nat → TreeState → NodeId → Bool
  | 0, _, _ => true
  | fuel + 1, st, nid =>
    match getNode st nid with
    | none => false
    | some n => n.isAlive && allAliveChildrenAux (allAliveF fuel) st n.children

/-- The liveness sweep over children at a given fuel level. -/
def allAliveChildren (fuel : Nat) : TreeState → List (String × NodeId) → Bool :=
  allAliveChildrenAux (allAliveF fuel)

/-! ## Patch application (applyPatchToNode) -/

/-- Split a character list on the slash character. -/
def splitSlash : List Char → List Char → List (List Char)
  | [], acc => [acc.reverse]
  | c :: rest, acc =>
    if c = Char.ofNat 47 then acc.reverse :: splitSlash rest []
    else splitSlash rest (c :: acc)

/-- Path splitting: patch.path split on slash, dropping empty segments. -/
def splitPath (p : String) : List String :=
  ((splitSlash p.data []).map (fun cs => String.mk cs)).filter
    (fun s => !s.data.isEmpty)

/-- parseInt on the final segment, with the not-a-number case behaving as
index zero once splice normalizes it.  (The source uses parseInt with
radix ten; numeric prefixes of garbage are not exercised by the engine.) -/
def parseIndex (k : Option String) : Int :=
  match k with
  | some s =>
    match strToInt? s with
    | some i => i
    | none => 0
  | none => 0

/-- Splice start normalization: negative counts from the end, clamped to
the array bounds. -/
def normStart (len : Nat) (i : Int) : Nat :=
  if i < 0 then (max (len + i) 0).toNat else min i.toNat len

/-- Insert an element at a position (Array.prototype.splice with delete
count zero, after start normalization). -/
def listInsertAt {α : Type} : List α → Nat → α → List α
  | xs, 0, v => v :: xs
  | [], _ + 1, v => [v]
  | x :: xs, i + 1, v => x :: listInsertAt xs i v

/-- Remove one element at a position (splice with delete count one); out
of range removes nothing. -/
def listRemoveAt {α : Type} : List α → Nat → List α
  | [], _ => []
  | _ :: xs, 0 => xs
  | x :: xs, i + 1 => x :: listRemoveAt xs i

/-- The property key used when the path has no final segment: JS coerces
the undefined key to the string form in a property write. -/
def keyOrUndef : Option String → String
  | some k => k
  | none => "undefined"

/-- Raw property write used by the childless replace case.  Objects gain
or replace the named entry; arrays overwrite a canonical in-range index;
every other target ignores the write. -/
def jsSetProp (v : Val) (k : Option String) (x : Val) : Val :=
  match v with
  | Val.obj fs => Val.obj (updateA fs (keyOrUndef k) x)
  | Val.arr xs =>
    match k with
    | some key =>
      match strToNat? key with
      | some i => if i < xs.length then Val.arr (xs.set i x) else Val.arr xs
      | none => Val.arr xs
    | none => Val.arr xs
  | _ => v

/-- Walk from the root through existing children to the parent of the
final segment, failing on a missing intermediate child. -/
def navigateGo (st : TreeState) (fullPath : String) :
    NodeId → List String → Except TreeError NodeId
  | nid, [] => Except.ok nid
  | nid, part :: rest =>
    match getNode st nid with
    | none => Except.error TreeError.noSuchNode
    | some n =>
      match lookupA n.children part with
      | none => Except.error (TreeError.invalidPath fullPath)
      | some cid => navigateGo st fullPath cid rest

/-- applyPatchToNode.  The value fetched from the containing node is the
very object stored in its cell, so the in-place splice or property write
mutates the stored value before setValue runs; the embedding reflects that
aliasing by writing the mutated value into the node first, which makes the
oldValue captured by setValue the already-mutated value. -/
def applyPatchToNode (fuel : Nat) (st : TreeState) (rootId : NodeId) (p : Patch) :
    Except TreeError TreeState :=
  let parts := splitPath p.path
  match navigateGo st p.path rootId parts.dropLast with
  | Except.error e => Except.error e
  | Except.ok nid =>
    match getNode st nid with
    | none => Except.error TreeError.noSuchNode
    | some n =>
      let key : Option String := parts.getLast?
      if p.op = "replace" then
        match key with
        | some k =>
          match lookupA n.children k with
          | some cid => applySnapshotToNode fuel st cid p.value
          | none =>
            let newVal := jsSetProp n.value key p.value
            let st1 := setNodeF st nid (fun m => { m with value := newVal })
            setValue st1 nid newVal
        | none =>
          let newVal := jsSetProp n.value key p.value
          let st1 := setNodeF st nid (fun m => { m with value := newVal })
          setValue st1 nid newVal
      else if p.op = "add" then
        match n.value with
        | Val.arr xs =>
          let idx := normStart xs.length
            (if key = some "-" then (xs.length : Int) else parseIndex key)
          let newVal := Val.arr (listInsertAt xs idx p.value)
          let st1 := setNodeF st nid (fun m => { m with value := newVal })
          setValue st1 nid newVal
        | Val.obj fs =>
          let newVal := Val.obj (updateA fs (keyOrUndef key) p.value)
          let st1 := setNodeF st nid (fun m => { m with value := newVal })
          setValue st1 nid newVal
        | _ => Except.ok st
      else if p.op = "remove" then
        match n.value with
        | Val.arr xs =>
          let idx := normStart xs.length (parseIndex key)
          let newVal := Val.arr (listRemoveAt xs idx)
          let st1 := setNodeF st nid (fun m => { m with value := newVal })
          setValue st1 nid newVal
        | Val.obj fs =>
          let newVal := Val.obj (removeA fs (keyOrUndef key))
          let st1 := setNodeF st nid (fun m => { m with value := newVal })
          setValue st1 nid newVal
        | _ => Except.ok st
      else
        Except.ok st

/-- Public applyPatch for one patch: resolve the root of the target, then
apply the patch from there. -/
def applyPatchRoot (st : TreeState) (nid : NodeId) (p : Patch) :
    Except TreeError TreeState :=
  applyPatchToNode (treeFuel st) st (getRootGo (treeFuel st) st nid) p

/-! ## Derived structural observations -/

/-- All node ids of a subtree, root first, children in insertion order. -/
def subtreeList : Nat → TreeState → NodeId → List NodeId
  | 0, _, _ => []
  | fuel + 1, st, nid =>
    match getNode st nid with
    | none => []
    | some n =>
      nid :: n.children.foldr (fun kc acc => subtreeList fuel st kc.2 ++ acc) []

/-- Follow a list of child keys downward from a node. -/
def descendPath (st : TreeState) : NodeId → List String → Option NodeId
  | nid, [] => some nid
  | nid, k :: ks =>
    match getNode st nid with
    | none => none
    | some n =>
      match lookupA n.children k with
      | none => none
      | some cid => descendPath st cid ks

/-- The slash-join of a list of child keys. -/
def chainPath : List String → String
  | [] => ""
  | k :: ks => "/" ++ k ++ chainPath ks

/-- The given list is exactly the ancestor chain of the node: its parent,
grandparent, and so on, ending at a parentless root. -/
def isAncChain (st : TreeState) : NodeId → List NodeId → Bool
  | nid, [] =>
    (match getNode st nid with
     | some n => n.parent = none
     | none => false)
  | nid, p :: rest =>
    (match getNode st nid with
     | some n => n.parent = some p && isAncChain st p rest
     | none => false)

/-- Well-formedness fragment: dead nodes have an empty child map (destroy
clears the child map of every node it kills, so this holds in every
reachable state). -/
def deadChildlessB (st : TreeState) : Bool :=
  st.nodes.all (fun pn => pn.2.isAlive || pn.2.children.isEmpty)

/-- Well-formedness fragment: every registry entry dereferences to a live
node. -/
def registryLiveB (st : TreeState) : Bool :=
  st.registry.all (fun tm => tm.2.all (fun entry =>
    match getNode st entry.2 with
    | some n => n.isAlive
    | none => false))

/-- Well-formedness fragment: every registry entry at key (typeName, id)
points at a node whose recorded binding is exactly that key.  This holds in
every reachable state because the engine registers a node at most once, at
creation. -/
def registryKeyedB (st : TreeState) : Bool :=
  st.registry.all (fun tm => tm.2.all (fun entry =>
    match getNode st entry.2 with
    | some n =>
      n.identifierTypeName = some tm.1 && n.identifierValue = some entry.1
    | none => false))

/-! ## Undo manager (undo.ts) -/

/-- One history entry: the inverse patches that undo the change and the
forward patches that redo it. -/
structure HistoryEntry : Type where
  patches : List RevPatch
  inversePatches : List RevPatch
  timestamp : Nat

/-- UndoManager state.  Times are abstract naturals supplied by callers. -/
structure UndoMgr : Type where
  maxHistoryLength : Nat
  groupByTime : Bool
  groupingWindow : Nat
  historyEntries : List HistoryEntry
  currentIndex : Int
  isUndoing : Bool
  isRedoing : Bool
  skipRecording : Bool
  grouping : Bool
  currentGroup : List RevPatch
  currentGroupInverse : List RevPatch
  lastChangeTime : Nat

/-- A fresh manager with the source defaults. -/
def UndoMgr.new : UndoMgr :=
  { maxHistoryLength := 100, groupByTime := false, groupingWindow := 200,
    historyEntries := [], currentIndex := -1, isUndoing := false,
    isRedoing := false, skipRecording := false, grouping := false,
    currentGroup := [], currentGroupInverse := [], lastChangeTime := 0 }

/-- undoLevels getter. -/
def UndoMgr.undoLevels (um : UndoMgr) : Int :=
  um.currentIndex + 1

/-- The spread cast of a forward patch to the reversible interface: no
oldValue property. -/
def patchAsRev (p : Patch) : RevPatch :=
  ⟨p.op, p.path, p.value, none⟩

/-- A reversible patch handed back to applyPatch, which reads only the
forward fields. -/
def revAsPatch (rp : RevPatch) : Patch :=
  ⟨rp.op, rp.path, rp.value⟩

/-- recordPatch: the onPatch subscription body.  Replay and suppression
flags drop the notification; an open group accumulates it; otherwise (with
time grouping possibly merging into the last entry) redo entries are
truncated, a fresh entry is pushed, and the history is trimmed to its cap
from the front. -/
def UndoMgr.recordPatch (um : UndoMgr) (p : Patch) (rp : RevPatch) (now : Nat) :
    UndoMgr :=
  if um.isUndoing || um.isRedoing || um.skipRecording then um
  else if um.grouping then
    { um with currentGroup := um.currentGroup ++ [rp],
              currentGroupInverse := patchAsRev p :: um.currentGroupInverse }
  else
    let um1 :=
      if um.groupByTime && decide (0 < um.historyEntries.length) &&
          decide (now - um.lastChangeTime < um.groupingWindow) &&
          decide (um.currentIndex = (um.historyEntries.length : Int) - 1) then
        match um.historyEntries.getLast? with
        | some lastEntry =>
          { um with historyEntries :=
              um.historyEntries.dropLast ++
                [{ patches := lastEntry.patches ++ [rp],
                   inversePatches := patchAsRev p :: lastEntry.inversePatches,
                   timestamp := now }] }
        | none => um
      else
        let entries0 :=
          if um.currentIndex < (um.historyEntries.length : Int) - 1 then
            um.historyEntries.take (um.currentIndex + 1).toNat
          else um.historyEntries
        let entries1 := entries0 ++
          [{ patches := [rp], inversePatches := [patchAsRev p], timestamp := now }]
        let idx1 := um.currentIndex + 1
        if um.maxHistoryLength < entries1.length then
          let excess := entries1.length - um.maxHistoryLength
          { um with historyEntries := entries1.drop excess,
                    currentIndex := idx1 - (excess : Int) }
        else
          { um with historyEntries := entries1, currentIndex := idx1 }
    { um1 with lastChangeTime := now }

/-- startGroup. -/
def UndoMgr.startGroup (um : UndoMgr) : UndoMgr :=
  { um with grouping := true, currentGroup := [], currentGroupInverse := [] }

/-- endGroup: close the transaction; a non-empty group becomes one entry
(with redo truncation and cap trimming); an empty group leaves no trace. -/
def UndoMgr.endGroup (um : UndoMgr) (now : Nat) : UndoMgr :=
  if um.grouping = false then um
  else
    let um0 := { um with grouping := false }
    let um1 :=
      if decide (0 < um0.currentGroup.length) then
        let entries0 :=
          if um0.currentIndex < (um0.historyEntries.length : Int) - 1 then
            um0.historyEntries.take (um0.currentIndex + 1).toNat
          else um0.historyEntries
        let entries1 := entries0 ++
          [{ patches := um0.currentGroup,
             inversePatches := um0.currentGroupInverse, timestamp := now }]
        let idx1 := um0.currentIndex + 1
        if um0.maxHistoryLength < entries1.length then
          let excess := entries1.length - um0.maxHistoryLength
          { um0 with historyEntries := entries1.drop excess,
                     currentIndex := idx1 - (excess : Int) }
        else
          { um0 with historyEntries := entries1, currentIndex := idx1 }
      else um0
    { um1 with currentGroup := [], currentGroupInverse := [] }

/-- An undo manager attached to the tree at a target node: the manager
subscribed onPatch at the target, so every patch notification delivered to
that node reaches recordPatch. -/
structure Sys : Type where
  tree : TreeState
  um : UndoMgr
  targetId : NodeId

/-- Feed the patch notifications delivered at the target to recordPatch,
in delivery order. -/
def feedUM (um : UndoMgr) (targetId : NodeId) (evs : List Event) (now : Nat) :
    UndoMgr :=
  evs.foldl
    (fun u e =>
      match e with
      | Event.patchNotify nid _ p rp =>
        if nid = targetId then u.recordPatch p rp now else u
      | _ => u)
    um

/-- Run a tree operation under the manager subscription: the notifications
it emits at the target are routed to recordPatch. -/
def sysRun (sys : Sys) (now : Nat)
    (op : TreeState → Except TreeError TreeState) : Except TreeError Sys :=
  match op sys.tree with
  | Except.error e => Except.error e
  | Except.ok t1 =>
    let newEvents := t1.events.drop sys.tree.events.length
    Except.ok { sys with
      tree := t1, um := feedUM sys.um sys.targetId newEvents now }

/-- A mutation through setValue observed by the manager. -/
def sysSetValue (sys : Sys) (nid : NodeId) (v : Val) (now : Nat) :
    Except TreeError Sys :=
  sysRun sys now (fun t => setValue t nid v)

/-- startGroup on the attached manager. -/
def sysStartGroup (sys : Sys) : Sys :=
  { sys with um := sys.um.startGroup }

/-- endGroup on the attached manager. -/
def sysEndGroup (sys : Sys) (now : Nat) : Sys :=
  { sys with um := sys.um.endGroup now }

/-- Apply the recorded reversible patches of an undo pass, in the order
given, routing the resulting notifications back through the manager (the
replay guard suppresses their recording). -/
def sysApplyRevs : Sys → List RevPatch → Nat → Except TreeError Sys
  | sys, [], _ => Except.ok sys
  | sys, rp :: rest, now =>
    match sysRun sys now (fun t => applyPatchRoot t sys.targetId (revAsPatch rp)) with
    | Except.error e => Except.error e
    | Except.ok sys1 => sysApplyRevs sys1 rest now

/-- undo: no-op when nothing is undoable; otherwise raise the replay
guard, apply the entry patches in reverse array order, step the cursor
back, and drop the guard. -/
def sysUndo (sys : Sys) (now : Nat) : Except TreeError Sys :=
  if sys.um.currentIndex < 0 then Except.ok sys
  else
    match sys.um.historyEntries.get? sys.um.currentIndex.toNat with
    | none => Except.ok sys
    | some entry =>
      let sysG : Sys := { sys with um := { sys.um with isUndoing := true } }
      match sysApplyRevs sysG entry.patches.reverse now with
      | Except.error e => Except.error e
      | Except.ok sys1 =>
        Except.ok { sys1 with um :=
          { sys1.um with currentIndex := sys1.um.currentIndex - 1,
                         isUndoing := false } }

/-! ## Listener dispatch with re-entrant subscription (notify loops)

The source iterates a JS Set of listener closures with forEach while a
callback may subscribe or unsubscribe listeners on the same node.  Per
ECMA-262, a Set keeps an internal entry list: delete replaces the entry
with an empty slot in place (later entries keep their positions), add
appends a new entry at the end unless the value is already present, and
Set.prototype.forEach walks the entry list by position, skipping empty
slots and visiting entries appended during the iteration — so an entry
deleted after its visit and then re-added is appended as a fresh entry
and visited a second time.  The dispatch loop is modelled with listeners
as ids carrying an effect executed when the listener is invoked. -/

/-- What a listener callback does to the listener set it lives in. -/
inductive LEffect : Type
  | pure : LEffect
  | subscribe : LId → LEffect
  | unsubscribe : LId → LEffect
deriving DecidableEq

/-- Whether a live slot holds the listener. -/
def slotsHas (slots : List (Option LId)) (l : LId) : Bool :=
  slots.contains (some l)

/-- Set.delete: empty the slot holding the listener, in place. -/
def slotsDelete : List (Option LId) → LId → List (Option LId)
  | [], _ => []
  | none :: rest, l => none :: slotsDelete rest l
  | some x :: rest, l =>
    if x = l then none :: rest else some x :: slotsDelete rest l

/-- Set.add: append a fresh entry unless the listener is already present. -/
def slotsAdd (slots : List (Option LId)) (l : LId) : List (Option LId) :=
  if slotsHas slots l then slots else slots ++ [some l]

/-- Apply a callback effect to the live entry list. -/
def applyLEffect (slots : List (Option LId)) : LEffect → List (Option LId)
  | LEffect.pure => slots
  | LEffect.subscribe l => slotsAdd slots l
  | LEffect.unsubscribe l => slotsDelete slots l

/-- One forEach pass: walk the entry list by position, skipping empty
slots, invoking each live listener and applying its effect to the live
entry list (which may grow during the walk); return the invocation log. -/
def dispatchGo (env : LId → LEffect) :
    Nat → List (Option LId) → Nat → List LId → List LId
  | 0, _, _, log => log
  | fuel + 1, slots, i, log =>
    if i < slots.length then
      match slots.getD i none with
      | none => dispatchGo env fuel slots (i + 1) log
      | some l => dispatchGo env fuel (applyLEffect slots (env l)) (i + 1) (log ++ [l])
    else log

/-- Dispatch a notification over a listener set. -/
def dispatch (env : LId → LEffect) (fuel : Nat) (set : List LId) : List LId :=
  dispatchGo env fuel (set.map some) 0 []

/-! # Infrastructure lemmas -/

/-! ## Association lists -/

theorem lookupA_updateA_self {α β : Type} [DecidableEq α]
    (l : List (α × β)) (k : α) (v : β) :
    lookupA (updateA l k v) k = some v := by
  induction l with
  | nil => simp [lookupA, updateA]
  | cons kv rest ih =>
    obtain ⟨k1, v1⟩ := kv
    by_cases hk : k1 = k
    · subst hk
      simp [lookupA, updateA]
    · simp [lookupA, updateA, hk, ih]

theorem lookupA_updateA_ne {α β : Type} [DecidableEq α]
    (l : List (α × β)) (k k1 : α) (v : β) (h : k1 ≠ k) :
    lookupA (updateA l k v) k1 = lookupA l k1 := by
  have hk1 : ¬ k = k1 := fun e => h e.symm
  induction l with
  | nil => simp [lookupA, updateA, hk1]
  | cons kv rest ih =>
    obtain ⟨k2, v2⟩ := kv
    by_cases hk : k2 = k
    · subst hk
      simp [lookupA, updateA, hk1]
    · simp [lookupA, updateA, hk, ih]

theorem length_updateA_of_mem {α β : Type} [DecidableEq α]
    (l : List (α × β)) (k : α) (v : β) (h : lookupA l k ≠ none) :
    (updateA l k v).length = l.length := by
  induction l with
  | nil => simp [lookupA] at h
  | cons kv rest ih =>
    obtain ⟨k1, v1⟩ := kv
    by_cases hk : k1 = k
    · subst hk
      simp [updateA]
    · simp [lookupA, hk] at h
      simp [updateA, hk, ih h]

theorem lookupA_removeA {α β : Type} [DecidableEq α]
    (l : List (α × β)) (a b : α) :
    lookupA (removeA l a) b = if b = a then none else lookupA l b := by
  induction l with
  | nil => simp [lookupA, removeA]
  | cons kv rest ih =>
    obtain ⟨k1, v1⟩ := kv
    by_cases hk : k1 = a
    · subst hk
      by_cases hb : b = k1
      · subst hb
        simp [removeA, ih]
      · have hkb : ¬ k1 = b := fun e => hb e.symm
        simp [removeA, lookupA, hb, hkb, ih]
    · by_cases hkb : k1 = b
      · have hba : ¬ b = a := fun e => hk (hkb.trans e)
        simp [removeA, lookupA, hk, hkb, hba]
      · simp [removeA, lookupA, hk, hkb, ih]

theorem lookupA_mem {α β : Type} [DecidableEq α]
    {l : List (α × β)} {k : α} {v : β} (h : lookupA l k = some v) :
    (k, v) ∈ l := by
  induction l with
  | nil => simp [lookupA] at h
  | cons kv rest ih =>
    obtain ⟨k1, v1⟩ := kv
    by_cases hk : k1 = k
    · subst hk
      simp [lookupA] at h
      simp [h]
    · simp [lookupA, hk] at h
      exact List.mem_cons_of_mem _ (ih h)

/-! ## Heap read and write -/

theorem getNode_setNode_self (st : TreeState) (nid : NodeId) (n : Node) :
    getNode (setNode st nid n) nid = some n :=
  lookupA_updateA_self st.nodes nid n

theorem getNode_setNode_ne (st : TreeState) (nid m : NodeId) (n : Node)
    (h : m ≠ nid) :
    getNode (setNode st nid n) m = getNode st m :=
  lookupA_updateA_ne st.nodes nid m n h

theorem registry_setNode (st : TreeState) (nid : NodeId) (n : Node) :
    (setNode st nid n).registry = st.registry := rfl

theorem events_setNode (st : TreeState) (nid : NodeId) (n : Node) :
    (setNode st nid n).events = st.events := rfl

theorem nodes_length_setNode (st : TreeState) (nid : NodeId) (n : Node)
    (h : getNode st nid ≠ none) :
    (setNode st nid n).nodes.length = st.nodes.length :=
  length_updateA_of_mem st.nodes nid n h

theorem treeFuel_setNode (st : TreeState) (nid : NodeId) (n : Node)
    (h : getNode st nid ≠ none) :
    treeFuel (setNode st nid n) = treeFuel st := by
  simp [treeFuel, nodes_length_setNode st nid n h]

theorem getNode_of_nodes_eq {st st' : TreeState} (h : st'.nodes = st.nodes) :
    ∀ m, getNode st' m = getNode st m := by
  intro m
  simp [getNode, h]

theorem registry_setNodeF (st : TreeState) (nid : NodeId) (f : Node → Node) :
    (setNodeF st nid f).registry = st.registry := by
  unfold setNodeF
  cases getNode st nid <;> rfl

theorem events_setNodeF (st : TreeState) (nid : NodeId) (f : Node → Node) :
    (setNodeF st nid f).events = st.events := by
  unfold setNodeF
  cases getNode st nid <;> rfl

/-! ## Listener dispatch environments (C9) -/

/-- The subscribe-during-dispatch environment: listener 0 subscribes a new
listener 1 when invoked. -/
def c9envAdd : LId → LEffect :=
  fun l => if l = 0 then LEffect.subscribe 1 else LEffect.pure

/-- The unsubscribe-during-dispatch environment: listener 0 unsubscribes
listener 1 when invoked. -/
def c9envRemove : LId → LEffect :=
  fun l => if l = 0 then LEffect.unsubscribe 1 else LEffect.pure

/-- The delete-then-re-add environment: listener 0 unsubscribes itself
when invoked, listener 1 re-subscribes listener 0. -/
def c9envCycle : LId → LEffect :=
  fun l =>
    if l = 0 then LEffect.unsubscribe 0
    else if l = 1 then LEffect.subscribe 0
    else LEffect.pure

/-! ## Registry lemmas -/

theorem resolve_register_self (st : TreeState) (nid : NodeId) (tn : String)
    (iv : Ident) (h : getNode st nid ≠ none) :
    resolveIdentifier (registerIdentifier st nid tn iv) tn iv = some nid := by
  unfold registerIdentifier
  cases hg : getNode st nid with
  | none => exact absurd hg h
  | some n =>
    unfold resolveIdentifier
    simp [lookupA_updateA_self]

theorem getNode_register_self (st : TreeState) (nid : NodeId) (tn : String)
    (iv : Ident) (n : Node) (h : getNode st nid = some n) :
    getNode (registerIdentifier st nid tn iv) nid =
      some { n with identifierTypeName := some tn, identifierValue := some iv } := by
  unfold registerIdentifier
  rw [h]
  exact getNode_setNode_self st nid _

theorem getNode_register_ne (st : TreeState) (nid m : NodeId) (tn : String)
    (iv : Ident) (h : m ≠ nid) :
    getNode (registerIdentifier st nid tn iv) m = getNode st m := by
  unfold registerIdentifier
  cases hg : getNode st nid with
  | none => rfl
  | some n => exact getNode_setNode_ne st nid m _ h

/-! ## Destruction preservation bundle -/

/-- Erase the fields destroy is allowed to change (liveness, child map,
listener sets); the rest of a node must survive destruction unchanged. -/
def eraseD (n : Node) : Node :=
  { n with isAlive := true, children := [], snapshotListeners := [],
           patchListeners := [] }

/-- Facts preserved by every step of destroyGo: the stable node fields,
the shrink-only evolution of child maps, the heap size, the append-only
event trace, the delete-only registry, and the monotonicity of death. -/
structure DProps (st st' : TreeState) : Prop where
  stable : ∀ m, (getNode st' m).map eraseD = (getNode st m).map eraseD
  shrink : ∀ m n', getNode st' m = some n' →
    ∃ n, getNode st m = some n ∧ (n'.children = n.children ∨ n'.children = [])
  len : st'.nodes.length = st.nodes.length
  evs : ∃ tl, st'.events = st.events ++ tl
  reg : ∀ tn iv x, resolveIdentifier st' tn iv = some x →
    resolveIdentifier st tn iv = some x
  dead : ∀ m n, getNode st m = some n → n.isAlive = false →
    ∃ n', getNode st' m = some n' ∧ n'.isAlive = false

theorem dprops_refl (st : TreeState) : DProps st st := by
  refine ⟨fun m => rfl, ?_, rfl, ⟨[], by simp⟩, fun tn iv x h => h, ?_⟩
  · intro m n' h
    exact ⟨n', h, Or.inl rfl⟩
  · intro m n h hd
    exact ⟨n, h, hd⟩

theorem dprops_trans {a b c : TreeState} (h1 : DProps a b) (h2 : DProps b c) :
    DProps a c := by
  refine ⟨?_, ?_, ?_, ?_, ?_, ?_⟩
  · intro m
    rw [h2.stable m, h1.stable m]
  · intro m n' hc
    obtain ⟨nb, hb, hcb⟩ := h2.shrink m n' hc
    obtain ⟨na, ha, hba⟩ := h1.shrink m nb hb
    refine ⟨na, ha, ?_⟩
    cases hcb with
    | inl e =>
      cases hba with
      | inl e2 => exact Or.inl (e.trans e2)
      | inr e2 => exact Or.inr (e.trans e2)
    | inr e => exact Or.inr e
  · exact h2.len.trans h1.len
  · obtain ⟨t1, e1⟩ := h1.evs
    obtain ⟨t2, e2⟩ := h2.evs
    exact ⟨t1 ++ t2, by rw [e2, e1, List.append_assoc]⟩
  · intro tn iv x h
    exact h1.reg tn iv x (h2.reg tn iv x h)
  · intro m n h hd
    obtain ⟨n', hb, hd'⟩ := h1.dead m n h hd
    exact h2.dead m n' hb hd'

/-- Existence of nodes is preserved whenever the erased projections agree. -/
theorem isSome_of_stable {st st' : TreeState}
    (h : ∀ m, (getNode st' m).map eraseD = (getNode st m).map eraseD) (m : NodeId) :
    (getNode st' m).isSome = (getNode st m).isSome := by
  have := h m
  cases h1 : getNode st' m <;> cases h2 : getNode st m <;>
    simp [h1, h2] at this ⊢

theorem dprops_setNodeF (st : TreeState) (nid : NodeId) (f : Node → Node)
    (hstable : ∀ n, eraseD (f n) = eraseD n)
    (hchild : ∀ n, (f n).children = n.children ∨ (f n).children = [])
    (hdead : ∀ n, n.isAlive = false → (f n).isAlive = false) :
    DProps st (setNodeF st nid f) := by
  unfold setNodeF
  cases hg : getNode st nid with
  | none => exact dprops_refl st
  | some n =>
    refine ⟨?_, ?_, ?_, ⟨[], by simp [events_setNode]⟩, fun tn iv x h => h, ?_⟩
    · intro m
      by_cases hm : m = nid
      · subst hm
        rw [getNode_setNode_self, hg]
        simp [hstable n]
      · rw [getNode_setNode_ne st nid m _ hm]
    · intro m n' h'
      by_cases hm : m = nid
      · subst hm
        rw [getNode_setNode_self] at h'
        have := Option.some.inj h'
        subst this
        exact ⟨n, hg, hchild n⟩
      · rw [getNode_setNode_ne st nid m _ hm] at h'
        exact ⟨n', h', Or.inl rfl⟩
    · exact nodes_length_setNode st nid _ (by rw [hg]; exact fun h => Option.noConfusion h)
    · intro m n0 h0 hd0
      by_cases hm : m = nid
      · subst hm
        rw [getNode_setNode_self]
        rw [h0] at hg
        have := Option.some.inj hg
        subst this
        exact ⟨f n0, rfl, hdead n0 hd0⟩
      · rw [getNode_setNode_ne st nid m _ hm]
        exact ⟨n0, h0, hd0⟩

theorem dprops_appendEvents (st : TreeState) (tl : List Event) :
    DProps st { st with events := st.events ++ tl } :=
  ⟨fun _ => rfl, fun _ n' h => ⟨n', h, Or.inl rfl⟩, rfl, ⟨tl, rfl⟩,
   fun _ _ _ h => h, fun _ n h hd => ⟨n, h, hd⟩⟩

/-- Lookup facts in the registry left by unregisterIdentifier at some
node: every surviving entry was already present. -/
theorem dprops_unregister (st : TreeState) (nid : NodeId) :
    DProps st (unregisterIdentifier st nid) := by
  unfold unregisterIdentifier
  cases hg : getNode st nid with
  | none => exact dprops_refl st
  | some n =>
    cases ht : n.identifierTypeName with
    | none => simp only [ht]; exact dprops_refl st
    | some tn0 =>
      cases hv : n.identifierValue with
      | none => simp only [ht, hv]; exact dprops_refl st
      | some iv0 =>
        simp only [ht, hv]
        cases hm : lookupA st.registry tn0 with
        | none => exact dprops_refl st
        | some typeMap =>
          refine ⟨fun m => rfl, fun m n' h => ⟨n', h, Or.inl rfl⟩, rfl,
            ⟨[], by simp⟩, ?_, fun m nn h hd => ⟨nn, h, hd⟩⟩
          intro tn iv x h
          unfold resolveIdentifier at h ⊢
          replace h :
              (match lookupA
                  (if (removeA typeMap iv0).isEmpty = true then removeA st.registry tn0
                   else updateA st.registry tn0 (removeA typeMap iv0)) tn with
               | some tm => lookupA tm iv
               | none => none) = some x := h
          by_cases he : (removeA typeMap iv0).isEmpty = true
          · rw [if_pos he] at h
            rw [lookupA_removeA] at h
            by_cases htn : tn = tn0
            · simp [htn] at h
            · rw [if_neg htn] at h
              exact h
          · rw [if_neg he] at h
            by_cases htn : tn = tn0
            · subst htn
              rw [lookupA_updateA_self] at h
              replace h : lookupA (removeA typeMap iv0) iv = some x := h
              rw [lookupA_removeA] at h
              by_cases hiv : iv = iv0
              · simp [hiv] at h
              · rw [if_neg hiv] at h
                rw [hm]
                exact h
            · rw [lookupA_updateA_ne st.registry tn0 tn _ htn] at h
              exact h

theorem dprops_foldl {g : TreeState → String × NodeId → TreeState}
    (hstep : ∀ s kc, DProps s (g s kc)) :
    ∀ (cs : List (String × NodeId)) (st : TreeState), DProps st (cs.foldl g st)
  | [], st => dprops_refl st
  | kc :: rest, st => by
    simp only [List.foldl_cons]
    exact dprops_trans (hstep st kc) (dprops_foldl hstep rest (g st kc))

theorem dprops_destroyGo : ∀ (fuel : Nat) (st : TreeState) (nid : NodeId),
    DProps st (destroyGo fuel st nid)
  | 0, st, nid => dprops_refl st
  | fuel + 1, st, nid => by
    rw [destroyGo]
    split
    · exact dprops_refl st
    · rename_i n hg
      split
      · exact dprops_refl st
      · refine dprops_trans
          (dprops_foldl (fun s kc => dprops_destroyGo fuel s kc.2) n.children st) ?_
        refine dprops_trans (dprops_setNodeF _ nid
          (fun m => { m with children := [] }) (fun m => rfl)
          (fun m => Or.inr rfl) (fun m h => h)) ?_
        refine dprops_trans (dprops_unregister _ nid) ?_
        refine dprops_trans (dprops_setNodeF _ nid
          (fun m => { m with isAlive := false }) (fun m => rfl)
          (fun m => Or.inl rfl) (fun m _ => rfl)) ?_
        refine dprops_trans (dprops_appendEvents
          (setNodeF (unregisterIdentifier (setNodeF
              (List.foldl (fun s kc => destroyGo fuel s kc.2) st n.children) nid
              (fun m => { m with children := [] })) nid) nid
            (fun m => { m with isAlive := false }))
          [Event.lifecycle nid false]) ?_
        exact dprops_setNodeF _ nid
          (fun m => { m with snapshotListeners := [], patchListeners := [] })
          (fun m => rfl) (fun m => Or.inl rfl) (fun m h => h)

theorem resolve_congr {st st' : TreeState} (h : st'.registry = st.registry)
    (tn : String) (iv : Ident) :
    resolveIdentifier st' tn iv = resolveIdentifier st tn iv := by
  unfold resolveIdentifier
  rw [h]

theorem unregister_resolve_none (st : TreeState) (m : NodeId) (n : Node)
    (tn : String) (iv : Ident) (h : getNode st m = some n)
    (ht : n.identifierTypeName = some tn) (hv : n.identifierValue = some iv) :
    resolveIdentifier (unregisterIdentifier st m) tn iv = none := by
  unfold unregisterIdentifier
  rw [h]
  simp only [ht, hv]
  cases hm : lookupA st.registry tn with
  | none =>
    unfold resolveIdentifier
    rw [hm]
  | some typeMap =>
    show (match lookupA
        (if (removeA typeMap iv).isEmpty = true then removeA st.registry tn
         else updateA st.registry tn (removeA typeMap iv)) tn with
      | some tm => lookupA tm iv
      | none => none) = none
    by_cases he : (removeA typeMap iv).isEmpty = true
    · rw [if_pos he, lookupA_removeA]
      simp
    · rw [if_neg he, lookupA_updateA_self]
      show lookupA (removeA typeMap iv) iv = none
      rw [lookupA_removeA]
      simp

theorem idFields_of_eraseD {a b : Node} (h : eraseD a = eraseD b) :
    a.identifierTypeName = b.identifierTypeName
    ∧ a.identifierValue = b.identifierValue := by
  constructor
  · have h2 := congrArg Node.identifierTypeName h
    simpa [eraseD] using h2
  · have h2 := congrArg Node.identifierValue h
    simpa [eraseD] using h2

/-- Destroying a live node removes its identifier binding: afterwards the
key it carried resolves to nothing. -/
theorem resolve_destroyGo_self (fuel : Nat) (st : TreeState) (m : NodeId)
    (n : Node) (tn : String) (iv : Ident)
    (h : getNode st m = some n) (ha : n.isAlive = true)
    (ht : n.identifierTypeName = some tn) (hv : n.identifierValue = some iv) :
    resolveIdentifier (destroyGo (fuel + 1) st m) tn iv = none := by
  rw [destroyGo, h]
  split
  · rename_i ha2
    simp at ha2
  · rename_i n2 heq
    cases Option.some.inj heq
    split
    · rename_i hdead
      rw [ha] at hdead
      simp at hdead
    have hD : DProps st (n.children.foldl (fun s kc => destroyGo fuel s kc.2) st) :=
      dprops_foldl (fun s kc => dprops_destroyGo fuel s kc.2) n.children st
    have hs := hD.stable m
    rw [h] at hs
    cases h1 : getNode (n.children.foldl (fun s kc => destroyGo fuel s kc.2) st) m with
    | none => rw [h1] at hs; simp at hs
    | some n1 =>
      rw [h1] at hs
      simp only [Option.map_some'] at hs
      have hfe := idFields_of_eraseD (Option.some.inj hs)
      refine Eq.trans (resolve_congr ?_ tn iv)
        (unregister_resolve_none
          (setNodeF (List.foldl (fun s kc => destroyGo fuel s kc.2) st n.children) m
            (fun q => { q with children := [] }))
          m { n1 with children := [] } tn iv ?_ ?_ ?_)
      · simp only [registry_setNodeF]
      · unfold setNodeF
        rw [h1]
        exact getNode_setNode_self _ m _
      · show n1.identifierTypeName = some tn
        rw [hfe.1, ht]
      · show n1.identifierValue = some iv
        rw [hfe.2, hv]

/-! ## Further heap plumbing for destruction -/

theorem getNode_setNodeF_ne (st : TreeState) (nid m : NodeId) (f : Node → Node)
    (h : m ≠ nid) : getNode (setNodeF st nid f) m = getNode st m := by
  unfold setNodeF
  cases getNode st nid with
  | none => rfl
  | some n => exact getNode_setNode_ne st nid m _ h

theorem getNode_setNodeF_self (st : TreeState) (nid : NodeId) (n : Node)
    (f : Node → Node) (h : getNode st nid = some n) :
    getNode (setNodeF st nid f) nid = some (f n) := by
  unfold setNodeF
  rw [h]
  exact getNode_setNode_self st nid _

theorem nodes_unregister (st : TreeState) (nid : NodeId) :
    (unregisterIdentifier st nid).nodes = st.nodes := by
  unfold unregisterIdentifier
  split
  · rfl
  · split
    · split
      · rfl
      · rfl
    · rfl

theorem events_unregister (st : TreeState) (nid : NodeId) :
    (unregisterIdentifier st nid).events = st.events := by
  unfold unregisterIdentifier
  split
  · rfl
  · split
    · split
      · rfl
      · rfl
    · rfl

theorem getNode_eventsAppend (t : TreeState) (evs : List Event) (m : NodeId) :
    getNode ({ t with events := evs } : TreeState) m = getNode t m := rfl

theorem mem_updateA {α β : Type} [DecidableEq α]
    (l : List (α × β)) (k : α) (v : β) :
    ∀ e, e ∈ updateA l k v → e ∈ l ∨ e = (k, v) := by
  induction l with
  | nil =>
    intro e he
    simp [updateA] at he
    simp [he]
  | cons kv rest ih =>
    obtain ⟨k1, v1⟩ := kv
    intro e he
    by_cases hk : k1 = k
    · rw [updateA, if_pos hk] at he
      cases List.mem_cons.mp he with
      | inl h => exact Or.inr h
      | inr h => exact Or.inl (List.mem_cons_of_mem _ h)
    · rw [updateA, if_neg hk] at he
      cases List.mem_cons.mp he with
      | inl h => exact Or.inl (by simp [h])
      | inr h =>
        cases ih e h with
        | inl h2 => exact Or.inl (List.mem_cons_of_mem _ h2)
        | inr h2 => exact Or.inr h2

/-- Pointwise reading of the dead-children invariant. -/
theorem deadChildless_spec {st : TreeState} (h : deadChildlessB st = true)
    {m : NodeId} {n : Node} (hg : getNode st m = some n)
    (hd : n.isAlive = false) : n.children = [] := by
  have hmem : (m, n) ∈ st.nodes := lookupA_mem hg
  have hall := List.all_eq_true.mp h (m, n) hmem
  rw [hd] at hall
  simpa using hall

theorem deadChildless_congr {st st' : TreeState} (h : st'.nodes = st.nodes) :
    deadChildlessB st' = deadChildlessB st := by
  unfold deadChildlessB
  rw [h]

theorem deadChildless_setNode {st : TreeState} (nid : NodeId) (n : Node)
    (h : deadChildlessB st = true)
    (hn : n.isAlive = true ∨ n.children = []) :
    deadChildlessB (setNode st nid n) = true := by
  unfold deadChildlessB at h ⊢
  rw [List.all_eq_true] at h ⊢
  intro e he
  cases mem_updateA st.nodes nid n e he with
  | inl h2 => exact h e h2
  | inr h2 =>
    subst h2
    cases hn with
    | inl hA => simp [hA]
    | inr hc => simp [hc]

/-! ## The children-shrinking relation of destruction -/

/-- Every node surviving a destruction either keeps its child map or has
been destroyed, leaving it dead with an empty child map. -/
def ShrinkD (s s' : TreeState) : Prop :=
  ∀ m n', getNode s' m = some n' → ∃ n, getNode s m = some n ∧
    (n'.children = n.children ∨ (n'.children = [] ∧ n'.isAlive = false))

theorem shrinkD_refl (s : TreeState) : ShrinkD s s :=
  fun _ n' h => ⟨n', h, Or.inl rfl⟩

theorem shrinkD_trans {a b c : TreeState} (h1 : ShrinkD a b) (h2 : ShrinkD b c)
    (hD : DProps b c) : ShrinkD a c := by
  intro m n' hc
  obtain ⟨nb, hb, hrel⟩ := h2 m n' hc
  obtain ⟨na, ha2, hrelb⟩ := h1 m nb hb
  refine ⟨na, ha2, ?_⟩
  cases hrel with
  | inr h => exact Or.inr h
  | inl he =>
    cases hrelb with
    | inl he2 => exact Or.inl (he.trans he2)
    | inr he2 =>
      obtain ⟨n2, hn2, hdn2⟩ := hD.dead m nb hb he2.2
      rw [hc] at hn2
      cases Option.some.inj hn2
      exact Or.inr ⟨he.trans he2.1, hdn2⟩

/-- A rank function witnessing that the child graph is well-founded (the
heap is a forest): every child has strictly smaller rank than its parent. -/
def rankOK (rank : NodeId → Nat) (st : TreeState) : Prop :=
  ∀ m n kc, getNode st m = some n → kc ∈ n.children → rank kc.2 < rank m

theorem rankOK_of_shrinkD {rank : NodeId → Nat} {s s' : TreeState}
    (hr : rankOK rank s) (hs : ShrinkD s s') : rankOK rank s' := by
  intro m n' kc hg hkc
  obtain ⟨n, hgn, hrel⟩ := hs m n' hg
  cases hrel with
  | inl he => exact hr m n kc hgn (he ▸ hkc)
  | inr he =>
    rw [he.1] at hkc
    cases hkc

/-! ## Kill-completeness -/

/-- Every node newly killed between the two states has every one of its
former descendants (followed through child keys in the first state) dead
in the second state. -/
def KC (s s' : TreeState) : Prop :=
  ∀ x nx nx', getNode s x = some nx → getNode s' x = some nx' →
    nx.isAlive = true → nx'.isAlive = false →
    ∀ ks m, descendPath s x ks = some m →
      ∀ nm', getNode s' m = some nm' → nm'.isAlive = false

theorem kc_refl (s : TreeState) : KC s s := by
  intro x nx nx' h1 h2 hA hd ks m hp nm' hgm
  rw [h1] at h2
  cases Option.some.inj h2
  rw [hA] at hd
  simp at hd

/-- A descent path in the pre-state either survives into the post-state or
ends at a node already dead there. -/
theorem descendPath_transfer {a b : TreeState}
    (hdc : deadChildlessB a = true) (hsh : ShrinkD a b) (hkc : KC a b)
    (hD : DProps a b) :
    ∀ (ks : List String) (x m : NodeId), descendPath a x ks = some m →
      descendPath b x ks = some m
      ∨ (∀ nm', getNode b m = some nm' → nm'.isAlive = false) := by
  intro ks
  induction ks with
  | nil =>
    intro x m hp
    exact Or.inl hp
  | cons k ks ih =>
    intro x m hp
    have hp0 := hp
    rw [descendPath] at hp
    cases hgx : getNode a x with
    | none => rw [hgx] at hp; simp at hp
    | some nax =>
      rw [hgx] at hp
      replace hp : (match lookupA nax.children k with
        | none => none
        | some cid => descendPath a cid ks) = some m := hp
      cases hlk : lookupA nax.children k with
      | none =>
        rw [hlk] at hp
        simp at hp
      | some cx =>
        rw [hlk] at hp
        replace hp : descendPath a cx ks = some m := hp
        have hbx : (getNode b x).isSome = true := by
          rw [isSome_of_stable hD.stable x, hgx]
          rfl
        obtain ⟨nbx, hgbx⟩ := Option.isSome_iff_exists.mp hbx
        obtain ⟨na0, hga0, hrel⟩ := hsh x nbx hgbx
        rw [hgx] at hga0
        cases Option.some.inj hga0
        cases hrel with
        | inl heq =>
          cases ih cx m hp with
          | inl hpb =>
            left
            rw [descendPath, hgbx]
            show (match lookupA nbx.children k with
              | none => none
              | some cid => descendPath b cid ks) = some m
            rw [heq, hlk]
            exact hpb
          | inr hdead => exact Or.inr hdead
        | inr hCD =>
          have hax : nax.isAlive = true := by
            cases hA : nax.isAlive with
            | false =>
              have := deadChildless_spec hdc hgx hA
              rw [this] at hlk
              simp [lookupA] at hlk
            | true => rfl
          exact Or.inr (hkc x nax nbx hgx hgbx hax hCD.2 (k :: ks) m hp0)

theorem kc_trans {a b c : TreeState} (hdc : deadChildlessB a = true)
    (h1 : KC a b) (h2 : KC b c) (hsh : ShrinkD a b)
    (hDab : DProps a b) (hDbc : DProps b c) : KC a c := by
  intro x nx nx' hga hgc hax hdxc ks m hp nm' hgm
  have hbx : (getNode b x).isSome = true := by
    rw [isSome_of_stable hDab.stable x, hga]
    rfl
  obtain ⟨nbx, hgbx⟩ := Option.isSome_iff_exists.mp hbx
  have hbm : (getNode b m).isSome = true := by
    rw [← isSome_of_stable hDbc.stable m, hgm]
    rfl
  obtain ⟨nbm, hgbm⟩ := Option.isSome_iff_exists.mp hbm
  cases hbalive : nbx.isAlive with
  | false =>
    have hdeadb := h1 x nx nbx hga hgbx hax hbalive ks m hp nbm hgbm
    obtain ⟨n2, hn2, hdn2⟩ := hDbc.dead m nbm hgbm hdeadb
    rw [hgm] at hn2
    cases Option.some.inj hn2
    exact hdn2
  | true =>
    cases descendPath_transfer hdc hsh h1 hDab ks x m hp with
    | inl hpb => exact h2 x nbx nx' hgbx hgc hbalive hdxc ks m hpb nm' hgm
    | inr hdead =>
      obtain ⟨n2, hn2, hdn2⟩ := hDbc.dead m nbm hgbm (hdead nbm hgbm)
      rw [hgm] at hn2
      cases Option.some.inj hn2
      exact hdn2

/-! ## The unfolded body of one destroy step -/

/-- The child-destruction loop of destroy. -/
def destroyFold (fuel : Nat) (cs : List (String × NodeId)) (s : TreeState) :
    TreeState :=
  cs.foldl (fun u kc => destroyGo fuel u kc.2) s

/-- The state after destroy has recursed, cleared the child map, removed
the identifier binding and dropped the liveness flag. -/
def destroySt4 (fuel : Nat) (s : TreeState) (c : NodeId) (n : Node) : TreeState :=
  setNodeF
    (unregisterIdentifier
      (setNodeF (destroyFold fuel n.children s) c
        (fun q => { q with children := [] })) c) c
    (fun q => { q with isAlive := false })

/-- The full body of destroy on a live node: the above, then the lifecycle
event and the clearing of both listener sets. -/
def destroySeq (fuel : Nat) (s : TreeState) (c : NodeId) (n : Node) : TreeState :=
  setNodeF
    ({ destroySt4 fuel s c n with
      events := (destroySt4 fuel s c n).events ++ [Event.lifecycle c false] }
      : TreeState)
    c (fun q => { q with snapshotListeners := [], patchListeners := [] })

theorem destroyGo_succ_eq (fuel : Nat) (s : TreeState) (c : NodeId) (n : Node)
    (hg : getNode s c = some n) (ha : n.isAlive = true) :
    destroyGo (fuel + 1) s c = destroySeq fuel s c n := by
  simp only [destroyGo, hg, ha, Bool.true_eq_false, if_false]
  rfl

theorem destroySeq_getNode_ne (fuel : Nat) (s : TreeState) (c : NodeId) (n : Node)
    (m : NodeId) (hm : m ≠ c) :
    getNode (destroySeq fuel s c n) m = getNode (destroyFold fuel n.children s) m := by
  unfold destroySeq
  rw [getNode_setNodeF_ne _ c m _ hm]
  rw [getNode_eventsAppend]
  unfold destroySt4
  rw [getNode_setNodeF_ne _ c m _ hm]
  rw [getNode_of_nodes_eq (nodes_unregister _ c) m]
  rw [getNode_setNodeF_ne _ c m _ hm]

theorem destroySeq_getNode_self (fuel : Nat) (s : TreeState) (c : NodeId)
    (n nA : Node) (hgA : getNode (destroyFold fuel n.children s) c = some nA) :
    getNode (destroySeq fuel s c n) c =
      some { nA with
        children := [], isAlive := false,
        snapshotListeners := [], patchListeners := [] } := by
  have h2 : getNode (setNodeF (destroyFold fuel n.children s) c
        (fun q => { q with children := [] })) c
      = some { nA with children := [] } :=
    getNode_setNodeF_self _ c nA _ hgA
  have h3 : getNode (unregisterIdentifier (setNodeF (destroyFold fuel n.children s) c
        (fun q => { q with children := [] })) c) c
      = some { nA with children := [] } := by
    rw [getNode_of_nodes_eq (nodes_unregister _ c) c]
    exact h2
  have h4 : getNode (destroySt4 fuel s c n) c
      = some { nA with children := [], isAlive := false } := by
    unfold destroySt4
    rw [getNode_setNodeF_self _ c { nA with children := [] } _ h3]
  unfold destroySeq
  rw [getNode_setNodeF_self _ c { nA with children := [], isAlive := false } _
    (by rw [getNode_eventsAppend]; exact h4)]

theorem destroySeq_events (fuel : Nat) (s : TreeState) (c : NodeId) (n : Node) :
    (destroySeq fuel s c n).events =
      (destroyFold fuel n.children s).events ++ [Event.lifecycle c false] := by
  unfold destroySeq
  rw [events_setNodeF]
  show (destroySt4 fuel s c n).events ++ [Event.lifecycle c false] = _
  unfold destroySt4
  rw [events_setNodeF, events_unregister, events_setNodeF]

theorem deadChildless_setNodeF (st : TreeState) (nid : NodeId) (f : Node → Node)
    (h : deadChildlessB st = true)
    (hf : ∀ q, getNode st nid = some q →
      ((f q).isAlive = true ∨ (f q).children = [])) :
    deadChildlessB (setNodeF st nid f) = true := by
  unfold setNodeF
  cases hg : getNode st nid with
  | none => exact h
  | some q => exact deadChildless_setNode nid (f q) h (hf q hg)

theorem destroySeq_deadChildless (fuel : Nat) (s : TreeState) (c : NodeId)
    (n nA : Node) (hgA : getNode (destroyFold fuel n.children s) c = some nA)
    (hdcA : deadChildlessB (destroyFold fuel n.children s) = true) :
    deadChildlessB (destroySeq fuel s c n) = true := by
  have h2 : deadChildlessB (setNodeF (destroyFold fuel n.children s) c
      (fun q => { q with children := [] })) = true :=
    deadChildless_setNodeF _ c _ hdcA (fun q _ => Or.inr rfl)
  have h3 : deadChildlessB (unregisterIdentifier
      (setNodeF (destroyFold fuel n.children s) c
        (fun q => { q with children := [] })) c) = true := by
    rw [deadChildless_congr (nodes_unregister _ c)]
    exact h2
  have h3n : getNode (unregisterIdentifier (setNodeF (destroyFold fuel n.children s) c
        (fun q => { q with children := [] })) c) c
      = some { nA with children := [] } := by
    rw [getNode_of_nodes_eq (nodes_unregister _ c) c]
    exact getNode_setNodeF_self _ c nA _ hgA
  have h4 : deadChildlessB (destroySt4 fuel s c n) = true := by
    unfold destroySt4
    refine deadChildless_setNodeF _ c _ h3 ?_
    intro q hq
    rw [h3n] at hq
    cases Option.some.inj hq
    exact Or.inr rfl
  have h4n : getNode (destroySt4 fuel s c n) c
      = some { nA with children := [], isAlive := false } := by
    unfold destroySt4
    rw [getNode_setNodeF_self _ c { nA with children := [] } _ h3n]
  have h5 : deadChildlessB ({ destroySt4 fuel s c n with
      events := (destroySt4 fuel s c n).events ++ [Event.lifecycle c false] }
        : TreeState) = true := by
    rw [deadChildless_congr rfl]
    exact h4
  unfold destroySeq
  refine deadChildless_setNodeF _ c _ h5 ?_
  intro q hq
  rw [getNode_eventsAppend, h4n] at hq
  cases Option.some.inj hq
  exact Or.inr rfl

/-! ## The destroy master induction -/

/-- Conjunction proved for every destroy call: kill-completeness of the
step, death of the target, the children-shrinking relation, and the
preservation of the dead-children invariant. -/
def DestroyMainP (rank : NodeId → Nat) (fuel : Nat) : Prop :=
  ∀ (s : TreeState) (c : NodeId), rankOK rank s → deadChildlessB s = true →
    rank c < fuel →
    KC s (destroyGo fuel s c)
    ∧ (∀ nc', getNode (destroyGo fuel s c) c = some nc' → nc'.isAlive = false)
    ∧ ShrinkD s (destroyGo fuel s c)
    ∧ deadChildlessB (destroyGo fuel s c) = true

theorem foldDestroy_props (rank : NodeId → Nat) (fuel : Nat)
    (hIH : DestroyMainP rank fuel) :
    ∀ (cs : List (String × NodeId)) (s : TreeState),
      rankOK rank s → deadChildlessB s = true →
      (∀ kc ∈ cs, rank kc.2 < fuel) →
      KC s (destroyFold fuel cs s)
      ∧ ShrinkD s (destroyFold fuel cs s)
      ∧ deadChildlessB (destroyFold fuel cs s) = true
      ∧ (∀ kc ∈ cs, ∀ nk', getNode (destroyFold fuel cs s) kc.2 = some nk' →
          nk'.isAlive = false) := by
  intro cs
  induction cs with
  | nil =>
    intro s hr hdc hcs
    refine ⟨kc_refl s, shrinkD_refl s, hdc, ?_⟩
    intro kc hkc
    cases hkc
  | cons kc0 cs ih =>
    intro s hr hdc hcs
    have hrk0 : rank kc0.2 < fuel := hcs kc0 (List.mem_cons_self kc0 cs)
    obtain ⟨K1, killK1, Sh1, DC1⟩ := hIH s kc0.2 hr hdc hrk0
    have hr1 : rankOK rank (destroyGo fuel s kc0.2) := rankOK_of_shrinkD hr Sh1
    have D1 : DProps s (destroyGo fuel s kc0.2) := dprops_destroyGo fuel s kc0.2
    obtain ⟨K2, Sh2, DC2, deads2⟩ := ih (destroyGo fuel s kc0.2) hr1 DC1
      (fun kc hkc => hcs kc (List.mem_cons_of_mem kc0 hkc))
    have D2 : DProps (destroyGo fuel s kc0.2)
        (destroyFold fuel cs (destroyGo fuel s kc0.2)) :=
      dprops_foldl (fun u kc => dprops_destroyGo fuel u kc.2) cs _
    have hfold : destroyFold fuel (kc0 :: cs) s
        = destroyFold fuel cs (destroyGo fuel s kc0.2) := rfl
    rw [hfold]
    refine ⟨kc_trans hdc K1 K2 Sh1 D1 D2, shrinkD_trans Sh1 Sh2 D2, DC2, ?_⟩
    intro kc hkc nk' hgk
    cases List.mem_cons.mp hkc with
    | inr hmem => exact deads2 kc hmem nk' hgk
    | inl heq =>
      subst heq
      have hb : (getNode (destroyGo fuel s kc.2) kc.2).isSome = true := by
        rw [← isSome_of_stable D2.stable kc.2, hgk]
        rfl
      obtain ⟨nk1, hgk1⟩ := Option.isSome_iff_exists.mp hb
      have hdead1 := killK1 nk1 hgk1
      obtain ⟨n2, hn2, hdn2⟩ := D2.dead kc.2 nk1 hgk1 hdead1
      rw [hgk] at hn2
      cases Option.some.inj hn2
      exact hdn2

theorem destroySeq_main (rank : NodeId → Nat) (fuel : Nat)
    (hIH : DestroyMainP rank fuel) (s : TreeState) (c : NodeId) (n : Node)
    (hg : getNode s c = some n) (hna : n.isAlive = true)
    (hr : rankOK rank s) (hdc : deadChildlessB s = true)
    (hfl : rank c < fuel + 1) :
    KC s (destroySeq fuel s c n)
    ∧ (∀ nc', getNode (destroySeq fuel s c n) c = some nc' → nc'.isAlive = false)
    ∧ ShrinkD s (destroySeq fuel s c n)
    ∧ deadChildlessB (destroySeq fuel s c n) = true := by
  have hchildranks : ∀ kc ∈ n.children, rank kc.2 < fuel := by
    intro kc hkc
    exact lt_of_lt_of_le (hr c n kc hg hkc) (Nat.lt_succ_iff.mp hfl)
  obtain ⟨KCA, ShA, DCA, deadsA⟩ :=
    foldDestroy_props rank fuel hIH n.children s hr hdc hchildranks
  have DA : DProps s (destroyFold fuel n.children s) :=
    dprops_foldl (fun u kc => dprops_destroyGo fuel u kc.2) n.children s
  have hsomeA : (getNode (destroyFold fuel n.children s) c).isSome = true := by
    rw [isSome_of_stable DA.stable c, hg]
    rfl
  obtain ⟨nA, hgA⟩ := Option.isSome_iff_exists.mp hsomeA
  have hfin := destroySeq_getNode_self fuel s c n nA hgA
  have hne := fun m (hm : m ≠ c) => destroySeq_getNode_ne fuel s c n m hm
  refine ⟨?_, ?_, ?_, destroySeq_deadChildless fuel s c n nA hgA DCA⟩
  · -- kill-completeness of the whole step
    intro x nx nx' hgx hgres hax hdx ks m hp nm' hgm
    by_cases hxc : x = c
    · subst hxc
      rw [hg] at hgx
      cases Option.some.inj hgx
      cases ks with
      | nil =>
        replace hp : (some x : Option NodeId) = some m := hp
        cases Option.some.inj hp
        rw [hfin] at hgm
        cases Option.some.inj hgm
        rfl
      | cons k ks2 =>
        rw [descendPath, hg] at hp
        replace hp : (match lookupA n.children k with
          | none => none
          | some cid => descendPath s cid ks2) = some m := hp
        cases hlk : lookupA n.children k with
        | none =>
          rw [hlk] at hp
          simp at hp
        | some cx =>
          rw [hlk] at hp
          replace hp : descendPath s cx ks2 = some m := hp
          have hkcmem : (k, cx) ∈ n.children := lookupA_mem hlk
          cases descendPath_transfer hdc ShA KCA DA ks2 cx m hp with
          | inr hdeadA =>
            by_cases hmc : m = x
            · subst hmc
              rw [hfin] at hgm
              cases Option.some.inj hgm
              rfl
            · rw [hne m hmc] at hgm
              exact hdeadA nm' hgm
          | inl hpA =>
            cases hgcx : getNode (destroyFold fuel n.children s) cx with
            | none =>
              cases ks2 with
              | nil =>
                replace hpA : (some cx : Option NodeId) = some m := hpA
                cases Option.some.inj hpA
                by_cases hmc : m = x
                · subst hmc
                  rw [hfin] at hgm
                  cases Option.some.inj hgm
                  rfl
                · rw [hne m hmc] at hgm
                  rw [hgcx] at hgm
                  cases hgm
              | cons k2 ks3 =>
                rw [descendPath] at hpA
                rw [hgcx] at hpA
                simp at hpA
            | some ncx =>
              have hncxdead : ncx.isAlive = false := deadsA (k, cx) hkcmem ncx hgcx
              cases ks2 with
              | nil =>
                replace hpA : (some cx : Option NodeId) = some m := hpA
                cases Option.some.inj hpA
                by_cases hmc : m = x
                · subst hmc
                  rw [hfin] at hgm
                  cases Option.some.inj hgm
                  rfl
                · rw [hne m hmc] at hgm
                  rw [hgcx] at hgm
                  cases Option.some.inj hgm
                  exact hncxdead
              | cons k2 ks3 =>
                rw [descendPath] at hpA
                rw [hgcx] at hpA
                replace hpA : (match lookupA ncx.children k2 with
                  | none => none
                  | some cid =>
                    descendPath (destroyFold fuel n.children s) cid ks3)
                    = some m := hpA
                rw [deadChildless_spec DCA hgcx hncxdead] at hpA
                simp [lookupA] at hpA
    · rw [hne x hxc] at hgres
      have hdeadA := KCA x nx nx' hgx hgres hax hdx ks m hp
      by_cases hmc : m = c
      · subst hmc
        rw [hfin] at hgm
        cases Option.some.inj hgm
        rfl
      · rw [hne m hmc] at hgm
        exact hdeadA nm' hgm
  · -- the target node dies
    intro nc' h
    rw [hfin] at h
    cases Option.some.inj h
    rfl
  · -- children-shrinking
    intro m n' hgm
    by_cases hmc : m = c
    · subst hmc
      rw [hfin] at hgm
      cases Option.some.inj hgm
      exact ⟨n, hg, Or.inr ⟨rfl, rfl⟩⟩
    · rw [hne m hmc] at hgm
      exact ShA m n' hgm

theorem destroyGo_main (rank : NodeId → Nat) :
    ∀ fuel, DestroyMainP rank fuel := by
  intro fuel
  induction fuel with
  | zero =>
    intro s c hr hdc hfl
    exact absurd hfl (Nat.not_lt_zero _)
  | succ fuel ih =>
    intro s c hr hdc hfl
    cases hgsc : getNode s c with
    | none =>
      have hres : destroyGo (fuel + 1) s c = s := by
        rw [destroyGo, hgsc]
      rw [hres]
      refine ⟨kc_refl s, ?_, shrinkD_refl s, hdc⟩
      intro nc' h
      rw [hgsc] at h
      cases h
    | some n =>
      cases hna : n.isAlive with
      | false =>
        have hres : destroyGo (fuel + 1) s c = s := by
          rw [destroyGo, hgsc]
          simp [hna]
        rw [hres]
        refine ⟨kc_refl s, ?_, shrinkD_refl s, hdc⟩
        intro nc' h
        rw [hgsc] at h
        cases Option.some.inj h
        exact hna
      | true =>
        rw [destroyGo_succ_eq fuel s c n hgsc hna]
        exact destroySeq_main rank fuel ih s c n hgsc hna hr hdc hfl

/-! ## Registry removal during destruction -/

/-- Invariant carried through a destruction for a key (tn, iv) recorded on
node m: either m is still alive carrying the key, or the key no longer
resolves. -/
def RegInv (tn : String) (iv : Ident) (m : NodeId) (t : TreeState) : Prop :=
  (∃ nm', getNode t m = some nm' ∧ nm'.isAlive = true
    ∧ nm'.identifierTypeName = some tn ∧ nm'.identifierValue = some iv)
  ∨ resolveIdentifier t tn iv = none

theorem resolve_none_mono {a b : TreeState} (hD : DProps a b) (tn : String)
    (iv : Ident) (h : resolveIdentifier a tn iv = none) :
    resolveIdentifier b tn iv = none := by
  cases hr : resolveIdentifier b tn iv with
  | none => rfl
  | some x =>
    have h2 := hD.reg tn iv x hr
    rw [h] at h2
    cases h2

theorem destroyGo_reg (tn : String) (iv : Ident) (m : NodeId) :
    ∀ (fuel : Nat) (s : TreeState) (c : NodeId),
      RegInv tn iv m s → RegInv tn iv m (destroyGo fuel s c) := by
  intro fuel
  induction fuel with
  | zero =>
    intro s c h
    exact h
  | succ fuel ih =>
    intro s c h
    cases hgsc : getNode s c with
    | none =>
      have hres : destroyGo (fuel + 1) s c = s := by
        rw [destroyGo, hgsc]
      rw [hres]
      exact h
    | some n =>
      cases hna : n.isAlive with
      | false =>
        have hres : destroyGo (fuel + 1) s c = s := by
          rw [destroyGo, hgsc]
          simp [hna]
        rw [hres]
        exact h
      | true =>
        rw [destroyGo_succ_eq fuel s c n hgsc hna]
        have hfold : RegInv tn iv m (destroyFold fuel n.children s) := by
          have hstep : ∀ (cs : List (String × NodeId)) (t : TreeState),
              RegInv tn iv m t → RegInv tn iv m (destroyFold fuel cs t) := by
            intro cs
            induction cs with
            | nil =>
              intro t ht
              exact ht
            | cons kc0 cs ihc =>
              intro t ht
              exact ihc (destroyGo fuel t kc0.2) (ih t kc0.2 ht)
          exact hstep n.children s h
        have h2 : RegInv tn iv m (setNodeF (destroyFold fuel n.children s) c
            (fun q => { q with children := [] })) := by
          cases hfold with
          | inr hr =>
            refine Or.inr ?_
            rw [resolve_congr (registry_setNodeF _ c _) tn iv]
            exact hr
          | inl hl =>
            obtain ⟨nm1, hg1, hA1, ht1, hv1⟩ := hl
            by_cases hmc : m = c
            · subst hmc
              exact Or.inl ⟨_, getNode_setNodeF_self _ m nm1 _ hg1, hA1, ht1, hv1⟩
            · exact Or.inl ⟨nm1,
                by rw [getNode_setNodeF_ne _ c m _ hmc]; exact hg1, hA1, ht1, hv1⟩
        have h4 : RegInv tn iv m (destroySt4 fuel s c n) := by
          unfold destroySt4
          by_cases hmc : m = c
          · subst hmc
            refine Or.inr ?_
            rw [resolve_congr (registry_setNodeF _ m _) tn iv]
            cases h2 with
            | inl hl =>
              obtain ⟨nm2, hg2, hA2, ht2, hv2⟩ := hl
              exact unregister_resolve_none _ m nm2 tn iv hg2 ht2 hv2
            | inr hr =>
              exact resolve_none_mono (dprops_unregister _ m) tn iv hr
          · cases h2 with
            | inl hl =>
              obtain ⟨nm2, hg2, hA2, ht2, hv2⟩ := hl
              refine Or.inl ⟨nm2, ?_, hA2, ht2, hv2⟩
              rw [getNode_setNodeF_ne _ c m _ hmc,
                getNode_of_nodes_eq (nodes_unregister _ c) m]
              exact hg2
            | inr hr =>
              refine Or.inr ?_
              rw [resolve_congr (registry_setNodeF _ c _) tn iv]
              exact resolve_none_mono (dprops_unregister _ c) tn iv hr
        show RegInv tn iv m (destroySeq fuel s c n)
        unfold destroySeq
        cases h4 with
        | inl hl =>
          obtain ⟨nm4, hg4, hA4, ht4, hv4⟩ := hl
          by_cases hmc : m = c
          · subst hmc
            exact Or.inl ⟨_, getNode_setNodeF_self _ m nm4 _
              (by rw [getNode_eventsAppend]; exact hg4), hA4, ht4, hv4⟩
          · refine Or.inl ⟨nm4, ?_, hA4, ht4, hv4⟩
            rw [getNode_setNodeF_ne _ c m _ hmc, getNode_eventsAppend]
            exact hg4
        | inr hr =>
          refine Or.inr ?_
          rw [resolve_congr (registry_setNodeF _ c _) tn iv]
          exact resolve_none_mono (dprops_appendEvents _ _) tn iv hr

/-! ## Path rewriting (updatePathRecursively) -/

theorem pathParent_of_eraseD {a b : Node} (h : eraseD a = eraseD b) :
    a.path = b.path ∧ a.parent = b.parent := by
  constructor
  · have h2 := congrArg Node.path h
    simpa [eraseD] using h2
  · have h2 := congrArg Node.parent h
    simpa [eraseD] using h2

/-- updatePathRecursively never changes any child map. -/
theorem updatePathRec_children :
    ∀ (fuel : Nat) (s : TreeState) (x : NodeId) (p : String) (m : NodeId),
      (getNode (updatePathRec fuel s x p) m).map (fun q => q.children)
        = (getNode s m).map (fun q => q.children)
  | 0, _, _, _, _ => rfl
  | fuel + 1, s, x, p, m => by
    rw [updatePathRec]
    split
    · rfl
    · rename_i nx hgx
      have hfold : ∀ (cs : List (String × NodeId)) (t : TreeState),
          (∀ m2, (getNode t m2).map (fun q => q.children)
            = (getNode s m2).map (fun q => q.children)) →
          ∀ m2, (getNode (cs.foldl
                (fun u kc => updatePathRec fuel u kc.2 (p ++ "/" ++ kc.1)) t) m2).map
              (fun q => q.children)
            = (getNode s m2).map (fun q => q.children) := by
        intro cs
        induction cs with
        | nil =>
          intro t ht m2
          exact ht m2
        | cons kc0 cs ihc =>
          intro t ht m2
          refine ihc (updatePathRec fuel t kc0.2 (p ++ "/" ++ kc0.1)) ?_ m2
          intro m3
          rw [updatePathRec_children fuel t kc0.2 _ m3]
          exact ht m3
      refine hfold nx.children (setNode s x { nx with path := p }) ?_ m
      intro m2
      by_cases hm : m2 = x
      · subst hm
        rw [getNode_setNode_self, hgx]
        rfl
      · rw [getNode_setNode_ne s x m2 _ hm]

theorem rankOK_setNode_sameChildren {rank : NodeId → Nat} {s : TreeState}
    (hr : rankOK rank s) (x : NodeId) (nx n2 : Node)
    (hgx : getNode s x = some nx) (hch : n2.children = nx.children) :
    rankOK rank (setNode s x n2) := by
  intro m n kc hg hkc
  by_cases hm : m = x
  · subst hm
    rw [getNode_setNode_self] at hg
    cases Option.some.inj hg
    exact hr m nx kc hgx (hch ▸ hkc)
  · rw [getNode_setNode_ne s x m _ hm] at hg
    exact hr m n kc hg hkc

theorem rankOK_setNodeF {rank : NodeId → Nat} {s : TreeState}
    (hr : rankOK rank s) (x : NodeId) (f : Node → Node)
    (hf : ∀ q, (f q).children = q.children) :
    rankOK rank (setNodeF s x f) := by
  unfold setNodeF
  cases hgx : getNode s x with
  | none => exact hr
  | some nx => exact rankOK_setNode_sameChildren hr x nx (f nx) hgx (hf nx)

theorem rankOK_updatePathRec {rank : NodeId → Nat} {s : TreeState}
    (hr : rankOK rank s) (fuel : Nat) (x : NodeId) (p : String) :
    rankOK rank (updatePathRec fuel s x p) := by
  intro m n kc hg hkc
  have hch := updatePathRec_children fuel s x p m
  rw [hg] at hch
  cases hgs : getNode s m with
  | none =>
    rw [hgs] at hch
    simp at hch
  | some n0 =>
    rw [hgs] at hch
    simp only [Option.map_some'] at hch
    have heq : n.children = n0.children := Option.some.inj hch
    exact hr m n0 kc hgs (heq ▸ hkc)

/-- updatePathRecursively started below a node never touches it. -/
theorem updatePathRec_high (rank : NodeId → Nat) :
    ∀ (fuel : Nat) (s : TreeState) (x : NodeId) (p : String) (m : NodeId),
      rankOK rank s → rank x < rank m →
      getNode (updatePathRec fuel s x p) m = getNode s m
  | 0, _, _, _, _, _, _ => rfl
  | fuel + 1, s, x, p, m, hr, hlt => by
    rw [updatePathRec]
    split
    · rfl
    · rename_i nx hgx
      have hchild : ∀ kc ∈ nx.children, rank kc.2 < rank x :=
        fun kc hkc => hr x nx kc hgx hkc
      have hfold : ∀ (cs : List (String × NodeId)) (t : TreeState),
          rankOK rank t → (∀ kc ∈ cs, rank kc.2 < rank x) →
          getNode t m = getNode s m →
          getNode (cs.foldl
              (fun u kc => updatePathRec fuel u kc.2 (p ++ "/" ++ kc.1)) t) m
            = getNode s m := by
        intro cs
        induction cs with
        | nil =>
          intro t htr hcs ht
          exact ht
        | cons kc0 cs ihc =>
          intro t htr hcs ht
          refine ihc (updatePathRec fuel t kc0.2 _)
            (rankOK_updatePathRec htr fuel kc0.2 _)
            (fun kc h => hcs kc (List.mem_cons_of_mem _ h)) ?_
          rw [updatePathRec_high rank fuel t kc0.2 _ m htr
            (lt_trans (hcs kc0 (List.mem_cons_self _ _)) hlt)]
          exact ht
      refine hfold nx.children (setNode s x { nx with path := p }) ?_ hchild ?_
      · exact rankOK_setNode_sameChildren hr x nx _ hgx rfl
      · have hmx : m ≠ x := by
          intro e
          rw [e] at hlt
          exact lt_irrefl _ hlt
        exact getNode_setNode_ne s x m _ hmx

/-- updatePathRecursively rewrites the path of the node it starts at. -/
theorem updatePathRec_self (rank : NodeId → Nat) (fuel : Nat) (s : TreeState)
    (x : NodeId) (p : String) (nx : Node)
    (hr : rankOK rank s) (hgx : getNode s x = some nx) :
    getNode (updatePathRec (fuel + 1) s x p) x = some { nx with path := p } := by
  rw [updatePathRec, hgx]
  show getNode (nx.children.foldl
      (fun u kc => updatePathRec fuel u kc.2 (p ++ "/" ++ kc.1))
      (setNode s x { nx with path := p })) x = some { nx with path := p }
  have hchild : ∀ kc ∈ nx.children, rank kc.2 < rank x :=
    fun kc hkc => hr x nx kc hgx hkc
  have hfold : ∀ (cs : List (String × NodeId)) (t : TreeState),
      rankOK rank t → (∀ kc ∈ cs, rank kc.2 < rank x) →
      getNode t x = some { nx with path := p } →
      getNode (cs.foldl
          (fun u kc => updatePathRec fuel u kc.2 (p ++ "/" ++ kc.1)) t) x
        = some { nx with path := p } := by
    intro cs
    induction cs with
    | nil =>
      intro t htr hcs ht
      exact ht
    | cons kc0 cs ihc =>
      intro t htr hcs ht
      refine ihc (updatePathRec fuel t kc0.2 _)
        (rankOK_updatePathRec htr fuel kc0.2 _)
        (fun kc h => hcs kc (List.mem_cons_of_mem _ h)) ?_
      rw [updatePathRec_high rank fuel t kc0.2 _ x htr
        (hcs kc0 (List.mem_cons_self _ _))]
      exact ht
  refine hfold nx.children (setNode s x { nx with path := p }) ?_ hchild
    (getNode_setNode_self s x _)
  exact rankOK_setNode_sameChildren hr x nx _ hgx rfl

/-! ## Full subtree correctness of updatePathRecursively -/

/-- Nodes reachable from a node by following child-map entries. -/
inductive ReachE (st : TreeState) : NodeId → NodeId → Prop where
  | refl (x : NodeId) : ReachE st x x
  | step {x m : NodeId} {n : Node} (hg : getNode st x = some n)
      (kc : String × NodeId) (hkc : kc ∈ n.children)
      (h : ReachE st kc.2 m) : ReachE st x m

/-- Erase the only field updatePathRecursively writes. -/
def eraseP (n : Node) : Node :=
  { n with path := "" }

theorem children_of_eraseP {a b : Node} (h : eraseP a = eraseP b) :
    a.children = b.children := by
  have h2 := congrArg Node.children h
  simpa [eraseP] using h2

/-- updatePathRecursively writes nothing but paths. -/
theorem updatePathRec_eraseP :
    ∀ (fuel : Nat) (s : TreeState) (x : NodeId) (p : String) (m : NodeId),
      (getNode (updatePathRec fuel s x p) m).map eraseP
        = (getNode s m).map eraseP
  | 0, _, _, _, _ => rfl
  | fuel + 1, s, x, p, m => by
    rw [updatePathRec]
    split
    · rfl
    · rename_i nx hgx
      have hfold : ∀ (cs : List (String × NodeId)) (t : TreeState),
          (∀ m2, (getNode t m2).map eraseP = (getNode s m2).map eraseP) →
          ∀ m2, (getNode (cs.foldl
                (fun u kc => updatePathRec fuel u kc.2 (p ++ "/" ++ kc.1)) t) m2).map
              eraseP
            = (getNode s m2).map eraseP := by
        intro cs
        induction cs with
        | nil =>
          intro t ht m2
          exact ht m2
        | cons kc0 cs ihc =>
          intro t ht m2
          refine ihc (updatePathRec fuel t kc0.2 (p ++ "/" ++ kc0.1)) ?_ m2
          intro m3
          rw [updatePathRec_eraseP fuel t kc0.2 _ m3]
          exact ht m3
      refine hfold nx.children (setNode s x { nx with path := p }) ?_ m
      intro m2
      by_cases hm : m2 = x
      · subst hm
        rw [getNode_setNode_self, hgx]
        rfl
      · rw [getNode_setNode_ne s x m2 _ hm]

theorem childrenAgree_of_eraseP {a b : TreeState}
    (h : ∀ m, (getNode b m).map eraseP = (getNode a m).map eraseP) :
    ∀ m, (getNode b m).map (fun q => q.children)
      = (getNode a m).map (fun q => q.children) := by
  intro m
  have h2 := h m
  cases hb : getNode b m <;> cases ha : getNode a m <;>
    rw [hb, ha] at h2 <;> simp at h2 ⊢
  exact children_of_eraseP (by rw [h2])

/-- Reachability only reads child maps. -/
theorem reachE_congr_children {a b : TreeState}
    (h : ∀ m2, (getNode b m2).map (fun q => q.children)
      = (getNode a m2).map (fun q => q.children)) :
    ∀ {x m : NodeId}, ReachE a x m → ReachE b x m := by
  intro x m hr
  induction hr with
  | refl y => exact ReachE.refl y
  | step hg kc hkc h2 ih =>
    rename_i x2 m2 n2
    have hb := h x2
    rw [hg] at hb
    cases hgb : getNode b x2 with
    | none =>
      rw [hgb] at hb
      simp at hb
    | some nb =>
      rw [hgb] at hb
      simp only [Option.map_some'] at hb
      refine ReachE.step hgb kc ?_ ih
      rw [Option.some.inj hb]
      exact hkc

/-- Descent only reads child maps. -/
theorem descendPath_congr_children {a b : TreeState}
    (h : ∀ m2, (getNode b m2).map (fun q => q.children)
      = (getNode a m2).map (fun q => q.children)) :
    ∀ (ks : List String) (x : NodeId), descendPath b x ks = descendPath a x ks := by
  intro ks
  induction ks with
  | nil =>
    intro x
    rfl
  | cons k ks ih =>
    intro x
    rw [descendPath, descendPath]
    have hx := h x
    cases hgb : getNode b x with
    | none =>
      rw [hgb] at hx
      cases hga : getNode a x with
      | none => rfl
      | some na =>
        rw [hga] at hx
        simp at hx
    | some nb =>
      rw [hgb] at hx
      cases hga : getNode a x with
      | none =>
        rw [hga] at hx
        simp at hx
      | some na =>
        rw [hga] at hx
        simp only [Option.map_some'] at hx
        have heq : nb.children = na.children := Option.some.inj hx
        show (match lookupA nb.children k with
          | none => none
          | some cid => descendPath b cid ks)
          = (match lookupA na.children k with
          | none => none
          | some cid => descendPath a cid ks)
        rw [heq]
        cases lookupA na.children k with
        | none => rfl
        | some cid => exact ih cid

theorem descendPath_reachE {s : TreeState} :
    ∀ (ks : List String) (x m : NodeId), descendPath s x ks = some m →
      ReachE s x m := by
  intro ks
  induction ks with
  | nil =>
    intro x m hp
    replace hp : (some x : Option NodeId) = some m := hp
    cases Option.some.inj hp
    exact ReachE.refl x
  | cons k ks ih =>
    intro x m hp
    rw [descendPath] at hp
    cases hgx : getNode s x with
    | none =>
      rw [hgx] at hp
      simp at hp
    | some nx =>
      rw [hgx] at hp
      replace hp : (match lookupA nx.children k with
        | none => none
        | some cid => descendPath s cid ks) = some m := hp
      cases hlk : lookupA nx.children k with
      | none =>
        rw [hlk] at hp
        simp at hp
      | some c0 =>
        rw [hlk] at hp
        replace hp : descendPath s c0 ks = some m := hp
        exact ReachE.step hgx (k, c0) (lookupA_mem hlk) (ih c0 m hp)

theorem rank_of_reachE {rank : NodeId → Nat} {s : TreeState}
    (hr : rankOK rank s) : ∀ {x m : NodeId}, ReachE s x m → rank m ≤ rank x := by
  intro x m hrm
  induction hrm with
  | refl y => exact le_refl _
  | step hg kc hkc h2 ih =>
    rename_i x2 m2 n2
    exact le_of_lt (lt_of_le_of_lt ih (hr x2 n2 kc hg hkc))

theorem rankOK_congr_children {rank : NodeId → Nat} {a b : TreeState}
    (h : ∀ m2, (getNode b m2).map (fun q => q.children)
      = (getNode a m2).map (fun q => q.children))
    (hr : rankOK rank a) : rankOK rank b := by
  intro m n kc hg hkc
  have h2 := h m
  rw [hg] at h2
  cases hga : getNode a m with
  | none =>
    rw [hga] at h2
    simp at h2
  | some n0 =>
    rw [hga] at h2
    simp only [Option.map_some'] at h2
    have heq : n.children = n0.children := Option.some.inj h2
    exact hr m n0 kc hga (heq ▸ hkc)

/-- Tree-shapedness: distinct child entries of any node have disjoint
reachable sets (every reachable well-formed state is a forest of this
shape). -/
def TreeShaped (st : TreeState) : Prop :=
  ∀ x n, getNode st x = some n →
    ∀ kc1, kc1 ∈ n.children → ∀ kc2, kc2 ∈ n.children → kc1 ≠ kc2 →
      ∀ m, ReachE st kc1.2 m → ¬ ReachE st kc2.2 m

theorem treeShaped_congr_children {a b : TreeState}
    (h : ∀ m2, (getNode b m2).map (fun q => q.children)
      = (getNode a m2).map (fun q => q.children))
    (ts : TreeShaped a) : TreeShaped b := by
  intro x n hg kc1 h1 kc2 h2 hne m hr1 hr2
  have hx := h x
  rw [hg] at hx
  cases hga : getNode a x with
  | none =>
    rw [hga] at hx
    simp at hx
  | some n0 =>
    rw [hga] at hx
    simp only [Option.map_some'] at hx
    have heq : n.children = n0.children := Option.some.inj hx
    have hsym : ∀ m2, (getNode a m2).map (fun q => q.children)
        = (getNode b m2).map (fun q => q.children) := fun m2 => (h m2).symm
    exact ts x n0 hga kc1 (heq ▸ h1) kc2 (heq ▸ h2) hne m
      (reachE_congr_children hsym hr1) (reachE_congr_children hsym hr2)

/-- updatePathRecursively never touches a node outside the reachable set
of its start. -/
theorem updatePathRec_frame :
    ∀ (fuel : Nat) (t : TreeState) (y : NodeId) (q : String) (m : NodeId),
      ¬ ReachE t y m → getNode (updatePathRec fuel t y q) m = getNode t m
  | 0, _, _, _, _, _ => rfl
  | fuel + 1, t, y, q, m, hm => by
    rw [updatePathRec]
    split
    · rfl
    · rename_i ny hgy
      have hmy : m ≠ y := by
        intro e
        subst e
        exact hm (ReachE.refl m)
      have hch : ∀ kc ∈ ny.children, ¬ ReachE t kc.2 m :=
        fun kc hkc hr => hm (ReachE.step hgy kc hkc hr)
      have hfold : ∀ (cs : List (String × NodeId)) (u : TreeState),
          (∀ m2, (getNode u m2).map (fun n2 => n2.children)
            = (getNode t m2).map (fun n2 => n2.children)) →
          (∀ kc ∈ cs, ¬ ReachE t kc.2 m) →
          getNode u m = getNode t m →
          getNode (cs.foldl
              (fun u2 kc => updatePathRec fuel u2 kc.2 (q ++ "/" ++ kc.1)) u) m
            = getNode t m := by
        intro cs
        induction cs with
        | nil =>
          intro u hag hcs hu
          exact hu
        | cons kc0 rest ihc =>
          intro u hag hcs hu
          have hnr : ¬ ReachE u kc0.2 m := fun hr =>
            hcs kc0 (List.mem_cons_self _ _)
              (reachE_congr_children (fun m2 => (hag m2).symm) hr)
          refine ihc (updatePathRec fuel u kc0.2 (q ++ "/" ++ kc0.1)) ?_
            (fun kc h2 => hcs kc (List.mem_cons_of_mem _ h2)) ?_
          · intro m2
            rw [updatePathRec_children fuel u kc0.2 _ m2]
            exact hag m2
          · rw [updatePathRec_frame fuel u kc0.2 _ m hnr]
            exact hu
      refine hfold ny.children (setNode t y { ny with path := q }) ?_ hch
        (getNode_setNode_ne t y m _ hmy)
      intro m2
      by_cases hm2 : m2 = y
      · subst hm2
        rw [getNode_setNode_self, hgy]
        rfl
      · rw [getNode_setNode_ne t y m2 _ hm2]

/-- updatePathRecursively rewrites the path of every node of the subtree:
the node reached from the start by the child keys ks ends at newPath
followed by the slash-join of ks, with every other field untouched. -/
theorem updatePathRec_full (rank : NodeId → Nat) :
    ∀ (fuel : Nat) (s : TreeState) (x : NodeId) (p : String),
      rankOK rank s → TreeShaped s → rank x < fuel →
      ∀ (ks : List String) (m : NodeId), descendPath s x ks = some m →
      ∀ nm0, getNode s m = some nm0 →
      ∃ nm, getNode (updatePathRec fuel s x p) m = some nm
        ∧ nm.path = p ++ chainPath ks ∧ eraseP nm = eraseP nm0
  | 0, _, _, _, _, _, hfl, _, _, _, _, _ => absurd hfl (Nat.not_lt_zero _)
  | fuel + 1, s, x, p, hr, hts, hfl, ks, m, hp, nm0, hgm0 => by
    cases ks with
    | nil =>
      replace hp : (some x : Option NodeId) = some m := hp
      cases Option.some.inj hp
      exact ⟨{ nm0 with path := p },
        updatePathRec_self rank fuel s x p nm0 hr hgm0,
        (String.append_empty p).symm, rfl⟩
    | cons k ks2 =>
      rw [descendPath] at hp
      cases hgx : getNode s x with
      | none =>
        rw [hgx] at hp
        simp at hp
      | some nx =>
        rw [hgx] at hp
        replace hp : (match lookupA nx.children k with
          | none => none
          | some cid => descendPath s cid ks2) = some m := hp
        cases hlk : lookupA nx.children k with
        | none =>
          rw [hlk] at hp
          simp at hp
        | some c0 =>
          rw [hlk] at hp
          replace hp : descendPath s c0 ks2 = some m := hp
          have hmemstar : (k, c0) ∈ nx.children := lookupA_mem hlk
          have hreach : ReachE s c0 m := descendPath_reachE ks2 c0 m hp
          have hrc0 : rank c0 < fuel :=
            lt_of_lt_of_le (hr x nx (k, c0) hgx hmemstar) (Nat.lt_succ_iff.mp hfl)
          have hstr : (p ++ "/" ++ k) ++ chainPath ks2 = p ++ chainPath (k :: ks2) := by
            show (p ++ "/" ++ k) ++ chainPath ks2 = p ++ ("/" ++ k ++ chainPath ks2)
            simp only [String.append_assoc]
          -- preservation once the path of m has been set correctly
          have hkeep : ∀ (cs : List (String × NodeId)) (u : TreeState)
              (nmu : Node),
              (∀ m2, (getNode u m2).map eraseP = (getNode s m2).map eraseP) →
              (∀ kc, kc ∈ cs → kc ∈ nx.children) →
              getNode u m = some nmu →
              nmu.path = (p ++ "/" ++ k) ++ chainPath ks2 →
              eraseP nmu = eraseP nm0 →
              ∃ nm, getNode (cs.foldl
                  (fun u2 kc => updatePathRec fuel u2 kc.2 (p ++ "/" ++ kc.1)) u) m
                  = some nm
                ∧ nm.path = (p ++ "/" ++ k) ++ chainPath ks2
                ∧ eraseP nm = eraseP nm0 := by
            intro cs
            induction cs with
            | nil =>
              intro u nmu hag hmem hgu hpathu hepu
              exact ⟨nmu, hgu, hpathu, hepu⟩
            | cons kc0 rest ihc =>
              intro u nmu hag hmem hgu hpathu hepu
              have hagc := childrenAgree_of_eraseP hag
              by_cases hkc0 : kc0 = (k, c0)
              · subst hkc0
                have hru : rankOK rank u := rankOK_congr_children hagc hr
                have htsu : TreeShaped u := treeShaped_congr_children hagc hts
                have hdpu : descendPath u c0 ks2 = some m := by
                  rw [descendPath_congr_children hagc ks2 c0]
                  exact hp
                obtain ⟨nm1, hg1, hp1, he1⟩ :=
                  updatePathRec_full rank fuel u c0 (p ++ "/" ++ k)
                    hru htsu hrc0 ks2 m hdpu nmu hgu
                refine ihc (updatePathRec fuel u c0 (p ++ "/" ++ k)) nm1 ?_
                  (fun kc h2 => hmem kc (List.mem_cons_of_mem _ h2))
                  hg1 hp1 (he1.trans hepu)
                intro m2
                rw [updatePathRec_eraseP fuel u c0 _ m2]
                exact hag m2
              · have hnr : ¬ ReachE u kc0.2 m := by
                  intro hru
                  have hrs : ReachE s kc0.2 m :=
                    reachE_congr_children (fun m2 => (hagc m2).symm) hru
                  exact hts x nx hgx (k, c0) hmemstar kc0
                    (hmem kc0 (List.mem_cons_self _ _))
                    (fun e => hkc0 e.symm) m hreach hrs
                refine ihc (updatePathRec fuel u kc0.2 (p ++ "/" ++ kc0.1)) nmu ?_
                  (fun kc h2 => hmem kc (List.mem_cons_of_mem _ h2))
                  ?_ hpathu hepu
                · intro m2
                  rw [updatePathRec_eraseP fuel u kc0.2 _ m2]
                  exact hag m2
                · rw [updatePathRec_frame fuel u kc0.2 _ m hnr]
                  exact hgu
          -- the first visit of the entry (k, c0) sets the path of m
          have hfold : ∀ (cs : List (String × NodeId)) (u : TreeState),
              (∀ m2, (getNode u m2).map eraseP = (getNode s m2).map eraseP) →
              (∀ kc, kc ∈ cs → kc ∈ nx.children) →
              (k, c0) ∈ cs →
              ∃ nm, getNode (cs.foldl
                  (fun u2 kc => updatePathRec fuel u2 kc.2 (p ++ "/" ++ kc.1)) u) m
                  = some nm
                ∧ nm.path = (p ++ "/" ++ k) ++ chainPath ks2
                ∧ eraseP nm = eraseP nm0 := by
            intro cs
            induction cs with
            | nil =>
              intro u hag hmem hstar
              cases hstar
            | cons kc0 rest ihc =>
              intro u hag hmem hstar
              have hagc := childrenAgree_of_eraseP hag
              by_cases hkc0 : kc0 = (k, c0)
              · subst hkc0
                have hru : rankOK rank u := rankOK_congr_children hagc hr
                have htsu : TreeShaped u := treeShaped_congr_children hagc hts
                have hdpu : descendPath u c0 ks2 = some m := by
                  rw [descendPath_congr_children hagc ks2 c0]
                  exact hp
                have hgum : ∃ nmu, getNode u m = some nmu
                    ∧ eraseP nmu = eraseP nm0 := by
                  have h2 := hag m
                  rw [hgm0] at h2
                  cases hgu : getNode u m with
                  | none =>
                    rw [hgu] at h2
                    simp at h2
                  | some nmu =>
                    rw [hgu] at h2
                    simp only [Option.map_some'] at h2
                    exact ⟨nmu, rfl, Option.some.inj h2⟩
                obtain ⟨nmu, hgu, hepu⟩ := hgum
                obtain ⟨nm1, hg1, hp1, he1⟩ :=
                  updatePathRec_full rank fuel u c0 (p ++ "/" ++ k)
                    hru htsu hrc0 ks2 m hdpu nmu hgu
                refine hkeep rest (updatePathRec fuel u c0 (p ++ "/" ++ k)) nm1 ?_
                  (fun kc h2 => hmem kc (List.mem_cons_of_mem _ h2))
                  hg1 hp1 (he1.trans hepu)
                intro m2
                rw [updatePathRec_eraseP fuel u c0 _ m2]
                exact hag m2
              · have hstar2 : (k, c0) ∈ rest := by
                  cases List.mem_cons.mp hstar with
                  | inl e => exact absurd e.symm hkc0
                  | inr h2 => exact h2
                refine ihc (updatePathRec fuel u kc0.2 (p ++ "/" ++ kc0.1)) ?_
                  (fun kc h2 => hmem kc (List.mem_cons_of_mem _ h2)) hstar2
                intro m2
                rw [updatePathRec_eraseP fuel u kc0.2 _ m2]
                exact hag m2
          rw [updatePathRec, hgx]
          show ∃ nm, getNode (nx.children.foldl
              (fun u2 kc => updatePathRec fuel u2 kc.2 (p ++ "/" ++ kc.1))
              (setNode s x { nx with path := p })) m = some nm
            ∧ nm.path = p ++ chainPath (k :: ks2) ∧ eraseP nm = eraseP nm0
          have hagSt1 : ∀ m2,
              (getNode (setNode s x { nx with path := p }) m2).map eraseP
                = (getNode s m2).map eraseP := by
            intro m2
            by_cases hm2 : m2 = x
            · subst hm2
              rw [getNode_setNode_self, hgx]
              rfl
            · rw [getNode_setNode_ne s x m2 _ hm2]
          obtain ⟨nm, hgnm, hpnm, henm⟩ :=
            hfold nx.children (setNode s x { nx with path := p }) hagSt1
              (fun kc h2 => h2) hmemstar
          exact ⟨nm, hgnm, by rw [hpnm, hstr], henm⟩

/-! # Claim C9: listener dispatch under re-entrant subscription -/

/-- C9 counterexample: the spec says each notification iterates a stable
snapshot of the listener set, so a listener added during dispatch is not
invoked for the in-flight notification and no listener is invoked twice.
The engine iterates the live JS Set: from the single listener 0 whose
callback subscribes listener 1, the dispatch invokes both 0 and 1; and
from the set [0, 1] where 0 unsubscribes itself and 1 re-subscribes 0,
the re-added entry is appended and visited again, so listener 0 is
invoked twice in one dispatch. -/
theorem c9_counterexample :
    (dispatch c9envAdd 5 [0] = [0, 1] ∧ dispatch c9envAdd 5 [0] ≠ [0])
    ∧ (dispatch c9envCycle 9 [0, 1] = [0, 1, 0]
      ∧ ¬ (dispatch c9envCycle 9 [0, 1]).Nodup) :=
  ⟨⟨rfl, by decide⟩, ⟨rfl, by decide⟩⟩

/-- C9 amended: notification dispatch iterates the LIVE listener set in
JS Set entry order, not a stable snapshot: a listener subscribed during
dispatch is invoked for the notification currently being dispatched; a
listener unsubscribed before its visit leaves an empty slot and is
skipped; and a listener unsubscribed after its visit and re-subscribed
during the same dispatch is appended as a fresh entry and invoked a
second time, so one dispatch may invoke the same listener twice. -/
theorem c9_live_set_dispatch :
    dispatch c9envAdd 5 [0] = [0, 1]
    ∧ dispatch c9envRemove 5 [0, 1] = [0]
    ∧ dispatch c9envCycle 9 [0, 1] = [0, 1, 0] :=
  ⟨rfl, rfl, rfl⟩

/-! # Claim C10: registerIdentifier overwrites an existing binding -/

/-- C10: registering a (typeName, identifier) pair already bound to a
different live node silently overwrites the binding; the old node stays
alive but is no longer reachable by identifier; and because unregistration
is keyed only by (typeName, identifier), destroying the old node afterwards
removes the new binding from the registry as well. -/
theorem c10_register_overwrite
    (st : TreeState) (a b : NodeId) (na nb : Node) (tn : String) (iv : Ident)
    (hab : a ≠ b)
    (ha : getNode st a = some na) (hb : getNode st b = some nb)
    (haAlive : na.isAlive = true) (hbAlive : nb.isAlive = true) :
    resolveIdentifier (registerIdentifier st a tn iv) tn iv = some a
    ∧ resolveIdentifier
        (registerIdentifier (registerIdentifier st a tn iv) b tn iv) tn iv = some b
    ∧ (∃ na2,
        getNode (registerIdentifier (registerIdentifier st a tn iv) b tn iv) a
          = some na2 ∧ na2.isAlive = true)
    ∧ resolveIdentifier
        (destroy (registerIdentifier (registerIdentifier st a tn iv) b tn iv) a)
        tn iv = none := by
  have h2 : getNode (registerIdentifier (registerIdentifier st a tn iv) b tn iv) a =
      some { na with identifierTypeName := some tn, identifierValue := some iv } := by
    rw [getNode_register_ne _ b a tn iv hab]
    exact getNode_register_self st a tn iv na ha
  refine ⟨?_, ?_, ?_, ?_⟩
  · exact resolve_register_self st a tn iv
      (by rw [ha]; exact fun hh => Option.noConfusion hh)
  · apply resolve_register_self
    rw [getNode_register_ne st a b tn iv (fun e => hab e.symm), hb]
    exact fun hh => Option.noConfusion hh
  · exact ⟨_, h2, haAlive⟩
  · exact resolve_destroyGo_self _ _ a _ tn iv h2 haAlive rfl rfl

/-- A plain live scalar node used by concrete scenarios. -/
def plainNode : Node :=
  { typeName := "User", kind := Kind.scalar, parent := none, path := "",
    isAlive := true, children := [], value := Val.null, env := none,
    identifierTypeName := none, identifierValue := none, preProcessor := none,
    postProcessor := none, snapshotListeners := [], patchListeners := [] }

/-- Two live nodes and an empty registry. -/
def c10state : TreeState :=
  { nodes := [(0, plainNode), (1, plainNode)], registry := [], events := [] }

theorem c10_register_overwrite_witness :
    ((0 : NodeId) ≠ 1
      ∧ getNode c10state 0 = some plainNode
      ∧ getNode c10state 1 = some plainNode
      ∧ plainNode.isAlive = true)
    ∧ (resolveIdentifier (registerIdentifier c10state 0 "User" (Ident.str "u1"))
          "User" (Ident.str "u1") = some 0
      ∧ resolveIdentifier
          (registerIdentifier (registerIdentifier c10state 0 "User" (Ident.str "u1"))
            1 "User" (Ident.str "u1")) "User" (Ident.str "u1") = some 1
      ∧ (∃ na2,
          getNode (registerIdentifier
            (registerIdentifier c10state 0 "User" (Ident.str "u1"))
            1 "User" (Ident.str "u1")) 0 = some na2 ∧ na2.isAlive = true)
      ∧ resolveIdentifier
          (destroy (registerIdentifier
            (registerIdentifier c10state 0 "User" (Ident.str "u1"))
            1 "User" (Ident.str "u1")) 0) "User" (Ident.str "u1") = none) :=
  ⟨⟨by decide, rfl, rfl, rfl⟩,
   c10_register_overwrite c10state 0 1 plainNode plainNode "User" (Ident.str "u1")
     (by decide) rfl rfl rfl rfl⟩

/-! # Claim C4: resolveIdentifier and reference liveness -/

theorem registry_facts_of_resolve (st : TreeState) (tn : String) (iv : Ident)
    (m : NodeId) (h : resolveIdentifier st tn iv = some m) :
    ∃ tmap, lookupA st.registry tn = some tmap ∧ lookupA tmap iv = some m := by
  unfold resolveIdentifier at h
  cases hm : lookupA st.registry tn with
  | none => rw [hm] at h; simp at h
  | some tmap =>
    rw [hm] at h
    exact ⟨tmap, rfl, h⟩

theorem registryLive_resolve (st : TreeState) (hl : registryLiveB st = true)
    {tn : String} {iv : Ident} {m : NodeId}
    (h : resolveIdentifier st tn iv = some m) :
    ∃ n, getNode st m = some n ∧ n.isAlive = true := by
  obtain ⟨tmap, h1, h2⟩ := registry_facts_of_resolve st tn iv m h
  have hmem1 : (tn, tmap) ∈ st.registry := lookupA_mem h1
  have hmem2 : (iv, m) ∈ tmap := lookupA_mem h2
  unfold registryLiveB at hl
  rw [List.all_eq_true] at hl
  have halt := hl (tn, tmap) hmem1
  rw [List.all_eq_true] at halt
  have h3 := halt (iv, m) hmem2
  cases hg : getNode st m with
  | none => rw [hg] at h3; simp at h3
  | some n =>
    rw [hg] at h3
    exact ⟨n, rfl, by simpa using h3⟩

theorem registryKeyed_resolve (st : TreeState) (hk : registryKeyedB st = true)
    {tn : String} {iv : Ident} {m : NodeId}
    (h : resolveIdentifier st tn iv = some m) :
    ∃ n, getNode st m = some n
      ∧ n.identifierTypeName = some tn ∧ n.identifierValue = some iv := by
  obtain ⟨tmap, h1, h2⟩ := registry_facts_of_resolve st tn iv m h
  have hmem1 : (tn, tmap) ∈ st.registry := lookupA_mem h1
  have hmem2 : (iv, m) ∈ tmap := lookupA_mem h2
  unfold registryKeyedB at hk
  rw [List.all_eq_true] at hk
  have halt := hk (tn, tmap) hmem1
  rw [List.all_eq_true] at halt
  have h3 := halt (iv, m) hmem2
  cases hg : getNode st m with
  | none => rw [hg] at h3; simp at h3
  | some n =>
    rw [hg] at h3
    simp only [Bool.and_eq_true, decide_eq_true_eq] at h3
    exact ⟨n, rfl, h3.1, h3.2⟩

/-- C4: in a state whose registry entries all point at live nodes carrying
exactly their registry key (which the engine maintains by registering each
node once, at creation), resolveIdentifier returns a node exactly when the
registry currently holds a live node under that key; an absent key yields
nothing rather than an error; and destroying the resolved node makes a
subsequent resolution return nothing. -/
theorem c4_resolve_liveness (st : TreeState) (tn : String) (iv : Ident)
    (hl : registryLiveB st = true) (hk : registryKeyedB st = true) :
    (∀ m, resolveIdentifier st tn iv = some m →
      ∃ n, getNode st m = some n ∧ n.isAlive = true)
    ∧ (∀ m tmap, lookupA st.registry tn = some tmap → lookupA tmap iv = some m →
        resolveIdentifier st tn iv = some m)
    ∧ (lookupA ((lookupA st.registry tn).getD []) iv = none →
        resolveIdentifier st tn iv = none)
    ∧ (∀ m, resolveIdentifier st tn iv = some m →
        resolveIdentifier (destroy st m) tn iv = none) := by
  refine ⟨?_, ?_, ?_, ?_⟩
  · intro m h
    exact registryLive_resolve st hl h
  · intro m tmap h1 h2
    unfold resolveIdentifier
    rw [h1]
    exact h2
  · intro habs
    unfold resolveIdentifier
    cases hm : lookupA st.registry tn with
    | none => rfl
    | some tmap =>
      rw [hm] at habs
      simpa using habs
  · intro m h
    obtain ⟨n, hg, halive⟩ := registryLive_resolve st hl h
    obtain ⟨n2, hg2, ht, hv⟩ := registryKeyed_resolve st hk h
    rw [hg] at hg2
    cases Option.some.inj hg2
    exact resolve_destroyGo_self _ st m n tn iv hg halive ht hv

/-- A node carrying identifier binding ("User", "u1"). -/
def c4node : Node :=
  { plainNode with identifierTypeName := some "User",
                   identifierValue := some (Ident.str "u1") }

/-- A state whose registry holds exactly that binding. -/
def c4state : TreeState :=
  { nodes := [(0, c4node)], registry := [("User", [(Ident.str "u1", 0)])],
    events := [] }

theorem c4_resolve_liveness_witness :
    (registryLiveB c4state = true ∧ registryKeyedB c4state = true)
    ∧ ((∀ m, resolveIdentifier c4state "User" (Ident.str "u1") = some m →
        ∃ n, getNode c4state m = some n ∧ n.isAlive = true)
      ∧ (∀ m tmap, lookupA c4state.registry "User" = some tmap →
          lookupA tmap (Ident.str "u1") = some m →
          resolveIdentifier c4state "User" (Ident.str "u1") = some m)
      ∧ (lookupA ((lookupA c4state.registry "User").getD []) (Ident.str "u1") = none →
          resolveIdentifier c4state "User" (Ident.str "u1") = none)
      ∧ (∀ m, resolveIdentifier c4state "User" (Ident.str "u1") = some m →
          resolveIdentifier (destroy c4state m) "User" (Ident.str "u1") = none)) :=
  ⟨⟨by decide, by decide⟩,
   c4_resolve_liveness c4state "User" (Ident.str "u1") (by decide) (by decide)⟩

/-! # Claim C7: dead-node errors from setValue and applySnapshot -/

/-- Erase the storage cell: setValue and applySnapshot change nothing
else on any node. -/
def eraseV (n : Node) : Node :=
  { n with value := Val.null }

/-- Value-only evolution of the heap. -/
def PresV (st st' : TreeState) : Prop :=
  ∀ m, (getNode st' m).map eraseV = (getNode st m).map eraseV

theorem presV_refl (st : TreeState) : PresV st st :=
  fun _ => rfl

theorem presV_trans {a b c : TreeState} (h1 : PresV a b) (h2 : PresV b c) :
    PresV a c :=
  fun m => (h2 m).trans (h1 m)

theorem alive_children_of_eraseV {a b : Node} (h : eraseV a = eraseV b) :
    a.isAlive = b.isAlive ∧ a.children = b.children := by
  constructor
  · have h2 := congrArg Node.isAlive h
    simpa [eraseV] using h2
  · have h2 := congrArg Node.children h
    simpa [eraseV] using h2

theorem nodes_notifyPatchGo :
    ∀ (fuel : Nat) (st : TreeState) (nid : NodeId) (p : Patch) (rp : RevPatch),
      (notifyPatchGo fuel st nid p rp).nodes = st.nodes
  | 0, _, _, _, _ => rfl
  | fuel + 1, st, nid, p, rp => by
    rw [notifyPatchGo]
    split
    · rfl
    · split
      · rename_i n hg pid hp
        rw [nodes_notifyPatchGo fuel _ pid p rp]
      · rfl

theorem registry_notifyPatchGo :
    ∀ (fuel : Nat) (st : TreeState) (nid : NodeId) (p : Patch) (rp : RevPatch),
      (notifyPatchGo fuel st nid p rp).registry = st.registry
  | 0, _, _, _, _ => rfl
  | fuel + 1, st, nid, p, rp => by
    rw [notifyPatchGo]
    split
    · rfl
    · split
      · rename_i n hg pid hp
        rw [registry_notifyPatchGo fuel _ pid p rp]
      · rfl

theorem nodes_notifySnapshotChange (fuel : Nat) (st : TreeState) (nid : NodeId) :
    (notifySnapshotChange fuel st nid).nodes = st.nodes := by
  simp only [notifySnapshotChange]
  cases getNode st (getRootGo fuel st nid) <;> rfl

theorem registry_notifySnapshotChange (fuel : Nat) (st : TreeState) (nid : NodeId) :
    (notifySnapshotChange fuel st nid).registry = st.registry := by
  simp only [notifySnapshotChange]
  cases getNode st (getRootGo fuel st nid) <;> rfl

/-- setValue on a live node always succeeds and only changes the value of
that node (plus the event trace). -/
theorem setValue_ok (st : TreeState) (nid : NodeId) (n : Node) (v : Val)
    (hg : getNode st nid = some n) (ha : n.isAlive = true) :
    ∃ st', setValue st nid v = Except.ok st' ∧ PresV st st'
      ∧ st'.registry = st.registry := by
  simp only [setValue, hg, ha, Bool.true_eq_false, if_false]
  refine ⟨_, rfl, ?_, ?_⟩
  · intro m
    rw [getNode_of_nodes_eq (nodes_notifySnapshotChange _ _ nid) m,
        getNode_of_nodes_eq (nodes_notifyPatchGo _ _ nid _ _) m]
    by_cases hm : m = nid
    · subst hm
      rw [getNode_setNode_self, hg]
      simp [eraseV, ha]
    · rw [getNode_setNode_ne st nid m _ hm]
  · rw [registry_notifySnapshotChange, registry_notifyPatchGo, registry_setNode]

/-- allAliveF only reads liveness flags and child maps, so it is stable
under value-only heap evolution. -/
theorem allAlive_congr : ∀ (fuel : Nat) {st st' : TreeState}, PresV st st' →
    (∀ nid, allAliveF fuel st' nid = allAliveF fuel st nid)
    ∧ (∀ cs, allAliveChildrenAux (allAliveF fuel) st' cs
        = allAliveChildrenAux (allAliveF fuel) st cs) := by
  intro fuel
  induction fuel with
  | zero =>
    intro st st' h
    refine ⟨fun nid => rfl, ?_⟩
    intro cs
    induction cs with
    | nil => rfl
    | cons kc rest ih =>
      obtain ⟨k, cid⟩ := kc
      simp only [allAliveChildrenAux, allAliveF, Bool.true_and] at ih ⊢
      exact ih
  | succ fuel ih =>
    intro st st' h
    have hC : ∀ cs, allAliveChildrenAux (allAliveF fuel) st' cs
        = allAliveChildrenAux (allAliveF fuel) st cs := (ih h).2
    have hF : ∀ nid, allAliveF (fuel + 1) st' nid = allAliveF (fuel + 1) st nid := by
      intro nid
      rw [allAliveF, allAliveF]
      have hm := h nid
      cases h1 : getNode st' nid <;> cases h2 : getNode st nid <;>
        rw [h1, h2] at hm <;> simp at hm ⊢
      rename_i n' n
      obtain ⟨hal, hch⟩ := alive_children_of_eraseV hm
      rw [hal, hch, hC]
    refine ⟨hF, ?_⟩
    intro cs
    induction cs with
    | nil => rfl
    | cons kc rest ih2 =>
      obtain ⟨k, cid⟩ := kc
      simp only [allAliveChildrenAux, hF, ih2]

/-- In a subtree whose nodes all exist and are alive, applySnapshot always
succeeds, and it only writes values. -/
theorem applySnapshot_ok_of_allAlive : ∀ (fuel : Nat),
    (∀ (st : TreeState) (nid : NodeId) (s : Val), allAliveF fuel st nid = true →
      ∃ st', applySnapshotToNode fuel st nid s = Except.ok st' ∧ PresV st st')
    ∧ (∀ (st : TreeState) (cs : List (String × NodeId)) (s : Val),
        allAliveChildrenAux (allAliveF fuel) st cs = true →
        ∃ st', applyModelChildrenAux (applySnapshotToNode fuel) st cs s
          = Except.ok st' ∧ PresV st st') := by
  intro fuel
  induction fuel with
  | zero =>
    constructor
    · intro st nid s _
      exact ⟨st, rfl, presV_refl st⟩
    · intro st cs s htriv
      clear htriv
      induction cs generalizing st with
      | nil => exact ⟨st, rfl, presV_refl st⟩
      | cons kc rest ih =>
        obtain ⟨k, cid⟩ := kc
        rw [applyModelChildrenAux]
        by_cases hkey : hasKeyJs s k = true
        · rw [if_pos hkey]
          show ∃ st', applyModelChildrenAux (applySnapshotToNode 0) st rest s
              = Except.ok st' ∧ PresV st st'
          exact ih st
        · rw [if_neg hkey]
          exact ih st
  | succ fuel ih =>
    have hP : ∀ (st : TreeState) (nid : NodeId) (s : Val),
        allAliveF (fuel + 1) st nid = true →
        ∃ st', applySnapshotToNode (fuel + 1) st nid s = Except.ok st'
          ∧ PresV st st' := by
      intro st nid s hAl
      rw [allAliveF] at hAl
      cases hg : getNode st nid with
      | none => rw [hg] at hAl; simp at hAl
      | some n =>
        rw [hg] at hAl
        simp only [Bool.and_eq_true] at hAl
        obtain ⟨hAlive, hChildren⟩ := hAl
        simp only [applySnapshotToNode, hg, hAlive, Bool.true_eq_false, if_false]
        by_cases hbr1 : n.kind = Kind.model
          ∧ isJsObject (match n.preProcessor with
              | some f => f s
              | none => s) = true
        · rw [if_pos hbr1]
          exact (ih.2) st n.children _ hChildren
        · rw [if_neg hbr1]
          have hsv : ∀ v : Val, ∃ st', setValue st nid v = Except.ok st'
              ∧ PresV st st' := by
            intro v
            obtain ⟨st', he, hp, _⟩ := setValue_ok st nid n v hg hAlive
            exact ⟨st', he, hp⟩
          by_cases hbr2 : n.kind = Kind.array
            ∧ isJsArray (match n.preProcessor with
                | some f => f s
                | none => s) = true
          · rw [if_pos hbr2]
            exact hsv _
          · rw [if_neg hbr2]
            by_cases hbr3 : n.kind = Kind.map
              ∧ isJsObject (match n.preProcessor with
                  | some f => f s
                  | none => s) = true
            · rw [if_pos hbr3]
              exact hsv _
            · rw [if_neg hbr3]
              exact hsv _
    refine ⟨hP, ?_⟩
    intro st cs s hAl
    induction cs generalizing st with
    | nil => exact ⟨st, rfl, presV_refl st⟩
    | cons kc rest ihl =>
      obtain ⟨k, cid⟩ := kc
      rw [allAliveChildrenAux] at hAl
      simp only [Bool.and_eq_true] at hAl
      obtain ⟨hHead, hRest⟩ := hAl
      rw [applyModelChildrenAux]
      by_cases hkey : hasKeyJs s k = true
      · rw [if_pos hkey]
        obtain ⟨st1, he1, hp1⟩ := hP st cid (jsGet s k) hHead
        rw [he1]
        have hRest1 : allAliveChildrenAux (allAliveF (fuel + 1)) st1 rest = true := by
          rw [(allAlive_congr (fuel + 1) hp1).2 rest]
          exact hRest
        obtain ⟨st2, he2, hp2⟩ := ihl st1 hRest1
        exact ⟨st2, he2, presV_trans hp1 hp2⟩
      · rw [if_neg hkey]
        exact ihl st hRest

/-! ## Reachability through child entries, and the frame of applySnapshot -/

theorem presV_symm {a b : TreeState} (h : PresV a b) : PresV b a :=
  fun m => (h m).symm

/-- Reachability only reads child maps, so it transfers along value-only
heap evolution. -/
theorem reachE_of_presV {a b : TreeState} (h : PresV a b) :
    ∀ {x m : NodeId}, ReachE a x m → ReachE b x m := by
  intro x m hr
  induction hr with
  | refl y => exact ReachE.refl y
  | step hg kc hkc h2 ih =>
    rename_i x2 m2 n2
    have hb := h x2
    rw [hg] at hb
    cases hgb : getNode b x2 with
    | none =>
      rw [hgb] at hb
      simp at hb
    | some nb =>
      rw [hgb] at hb
      simp only [Option.map_some'] at hb
      have hch := (alive_children_of_eraseV (Option.some.inj hb)).2
      refine ReachE.step hgb kc ?_ ih
      rw [hch]
      exact hkc

theorem setValue_presV (st : TreeState) (nid : NodeId) (v : Val) (st' : TreeState)
    (hok : setValue st nid v = Except.ok st') : PresV st st' := by
  rw [setValue] at hok
  split at hok
  · cases hok
  · rename_i n hg
    split at hok
    · cases hok
    · cases Except.ok.inj hok
      intro m
      rw [getNode_of_nodes_eq (nodes_notifySnapshotChange _ _ nid) m,
          getNode_of_nodes_eq (nodes_notifyPatchGo _ _ nid _ _) m]
      by_cases hm : m = nid
      · subst hm
        rw [getNode_setNode_self, hg]
        simp [eraseV]
      · rw [getNode_setNode_ne st nid m _ hm]

theorem setValue_frame (st : TreeState) (nid : NodeId) (v : Val) (st' : TreeState)
    (hok : setValue st nid v = Except.ok st') :
    ∀ m, m ≠ nid → getNode st' m = getNode st m := by
  rw [setValue] at hok
  split at hok
  · cases hok
  · rename_i n hg
    split at hok
    · cases hok
    · cases Except.ok.inj hok
      intro m hm
      rw [getNode_of_nodes_eq (nodes_notifySnapshotChange _ _ nid) m,
          getNode_of_nodes_eq (nodes_notifyPatchGo _ _ nid _ _) m,
          getNode_setNode_ne st nid m _ hm]

/-- applySnapshot, when it succeeds, only writes values. -/
theorem applySnapshot_presV : ∀ (fuel : Nat),
    (∀ (st : TreeState) (x : NodeId) (s : Val) (st' : TreeState),
      applySnapshotToNode fuel st x s = Except.ok st' → PresV st st')
    ∧ (∀ (st : TreeState) (cs : List (String × NodeId)) (s : Val) (st' : TreeState),
      applyModelChildrenAux (applySnapshotToNode fuel) st cs s = Except.ok st' →
      PresV st st') := by
  intro fuel
  induction fuel with
  | zero =>
    constructor
    · intro st x s st' h
      cases Except.ok.inj h
      exact presV_refl st
    · intro st cs s st' h
      have hloop : ∀ (cs2 : List (String × NodeId)) (t t' : TreeState),
          applyModelChildrenAux (applySnapshotToNode 0) t cs2 s = Except.ok t' →
          PresV t t' := by
        intro cs2
        induction cs2 with
        | nil =>
          intro t t' h2
          cases Except.ok.inj h2
          exact presV_refl t
        | cons kc rest ihc =>
          obtain ⟨k, cid⟩ := kc
          intro t t' h2
          rw [applyModelChildrenAux] at h2
          by_cases hkey : hasKeyJs s k = true
          · rw [if_pos hkey] at h2
            replace h2 : applyModelChildrenAux (applySnapshotToNode 0) t rest s
                = Except.ok t' := h2
            exact ihc t t' h2
          · rw [if_neg hkey] at h2
            exact ihc t t' h2
      exact hloop cs st st' h
  | succ fuel ih =>
    have hA : ∀ (st : TreeState) (x : NodeId) (s : Val) (st' : TreeState),
        applySnapshotToNode (fuel + 1) st x s = Except.ok st' → PresV st st' := by
      intro st x s st' h
      simp only [applySnapshotToNode] at h
      split at h
      · cases h
      · split at h
        · cases h
        · split at h
          · exact ih.2 st _ _ st' h
          · split at h
            · exact setValue_presV st x _ st' h
            · split at h
              · exact setValue_presV st x _ st' h
              · exact setValue_presV st x _ st' h
    refine ⟨hA, ?_⟩
    intro st cs s st' h
    have hloop : ∀ (cs2 : List (String × NodeId)) (t t' : TreeState),
        applyModelChildrenAux (applySnapshotToNode (fuel + 1)) t cs2 s
          = Except.ok t' → PresV t t' := by
      intro cs2
      induction cs2 with
      | nil =>
        intro t t' h2
        cases Except.ok.inj h2
        exact presV_refl t
      | cons kc rest ihc =>
        obtain ⟨k, cid⟩ := kc
        intro t t' h2
        rw [applyModelChildrenAux] at h2
        by_cases hkey : hasKeyJs s k = true
        · rw [if_pos hkey] at h2
          cases happ : applySnapshotToNode (fuel + 1) t cid (jsGet s k) with
          | error e =>
            rw [happ] at h2
            cases h2
          | ok t1 =>
            rw [happ] at h2
            replace h2 : applyModelChildrenAux (applySnapshotToNode (fuel + 1))
                t1 rest s = Except.ok t' := h2
            exact presV_trans (hA t cid _ t1 happ) (ihc t1 t' h2)
        · rw [if_neg hkey] at h2
          exact ihc t t' h2
    exact hloop cs st st' h

/-- applySnapshot, when it succeeds, touches no node outside the reachable
set of its target. -/
theorem applySnapshot_frame : ∀ (fuel : Nat),
    (∀ (st : TreeState) (x : NodeId) (s : Val) (st' : TreeState),
      applySnapshotToNode fuel st x s = Except.ok st' →
      ∀ m, ¬ ReachE st x m → getNode st' m = getNode st m)
    ∧ (∀ (st : TreeState) (cs : List (String × NodeId)) (s : Val) (st' : TreeState),
      applyModelChildrenAux (applySnapshotToNode fuel) st cs s = Except.ok st' →
      ∀ m, (∀ kc ∈ cs, hasKeyJs s kc.1 = true → ¬ ReachE st kc.2 m) →
        getNode st' m = getNode st m) := by
  intro fuel
  induction fuel with
  | zero =>
    constructor
    · intro st x s st' h m _
      cases Except.ok.inj h
      rfl
    · intro st cs s st' h m hm
      have hloop : ∀ (cs2 : List (String × NodeId)) (t t' : TreeState),
          applyModelChildrenAux (applySnapshotToNode 0) t cs2 s = Except.ok t' →
          getNode t' m = getNode t m := by
        intro cs2
        induction cs2 with
        | nil =>
          intro t t' h2
          cases Except.ok.inj h2
          rfl
        | cons kc rest ihc =>
          obtain ⟨k, cid⟩ := kc
          intro t t' h2
          rw [applyModelChildrenAux] at h2
          by_cases hkey : hasKeyJs s k = true
          · rw [if_pos hkey] at h2
            replace h2 : applyModelChildrenAux (applySnapshotToNode 0) t rest s
                = Except.ok t' := h2
            exact ihc t t' h2
          · rw [if_neg hkey] at h2
            exact ihc t t' h2
      exact hloop cs st st' h
  | succ fuel ih =>
    have hA : ∀ (st : TreeState) (x : NodeId) (s : Val) (st' : TreeState),
        applySnapshotToNode (fuel + 1) st x s = Except.ok st' →
        ∀ m, ¬ ReachE st x m → getNode st' m = getNode st m := by
      intro st x s st' h m hm
      simp only [applySnapshotToNode] at h
      split at h
      · cases h
      · rename_i n hg
        split at h
        · cases h
        · have hmx : m ≠ x := by
            intro e
            subst e
            exact hm (ReachE.refl m)
          split at h
          · rename_i hcond
            refine ih.2 st n.children _ st' h m ?_
            intro kc hkc _ hr
            exact hm (ReachE.step hg kc hkc hr)
          · split at h
            · exact setValue_frame st x _ st' h m hmx
            · split at h
              · exact setValue_frame st x _ st' h m hmx
              · exact setValue_frame st x _ st' h m hmx
    refine ⟨hA, ?_⟩
    intro st cs s st' h m hm
    have hloop : ∀ (cs2 : List (String × NodeId)) (t t' : TreeState),
        applyModelChildrenAux (applySnapshotToNode (fuel + 1)) t cs2 s
          = Except.ok t' →
        (∀ kc ∈ cs2, hasKeyJs s kc.1 = true → ¬ ReachE t kc.2 m) →
        getNode t' m = getNode t m := by
      intro cs2
      induction cs2 with
      | nil =>
        intro t t' h2 _
        cases Except.ok.inj h2
        rfl
      | cons kc rest ihc =>
        obtain ⟨k, cid⟩ := kc
        intro t t' h2 hm2
        rw [applyModelChildrenAux] at h2
        by_cases hkey : hasKeyJs s k = true
        · rw [if_pos hkey] at h2
          cases happ : applySnapshotToNode (fuel + 1) t cid (jsGet s k) with
          | error e =>
            rw [happ] at h2
            cases h2
          | ok t1 =>
            rw [happ] at h2
            replace h2 : applyModelChildrenAux (applySnapshotToNode (fuel + 1))
                t1 rest s = Except.ok t' := h2
            have hPres : PresV t t1 := (applySnapshot_presV (fuel + 1)).1 t cid _ t1 happ
            have h1 : getNode t1 m = getNode t m :=
              hA t cid _ t1 happ m (hm2 (k, cid) (List.mem_cons_self _ _) hkey)
            have hm1 : ∀ kc2 ∈ rest, hasKeyJs s kc2.1 = true → ¬ ReachE t1 kc2.2 m := by
              intro kc2 hk2 hkey2 hr1
              exact hm2 kc2 (List.mem_cons_of_mem _ hk2) hkey2
                (reachE_of_presV (presV_symm hPres) hr1)
            rw [ihc t1 t' h2 hm1]
            exact h1
        · rw [if_neg hkey] at h2
          exact ihc t t' h2 (fun kc2 hk2 => hm2 kc2 (List.mem_cons_of_mem _ hk2))
    exact hloop cs st st' h hm

/-- The snapshot of a node depends only on the nodes reachable from it. -/
theorem getSnapshot_reach_congr :
    ∀ (fuel : Nat) (st st' : TreeState) (x : NodeId),
      (∀ m, ReachE st x m → getNode st' m = getNode st m) →
      getSnapshotFromNode fuel st' x = getSnapshotFromNode fuel st x
  | 0, _, _, _, _ => rfl
  | fuel + 1, st, st', x, h => by
    have hx : getNode st' x = getNode st x := h x (ReachE.refl x)
    cases hg : getNode st x with
    | none => simp only [getSnapshotFromNode, hx, hg]
    | some n =>
      have hrec : ∀ kc ∈ n.children,
          getSnapshotFromNode fuel st' kc.2 = getSnapshotFromNode fuel st kc.2 :=
        fun kc hkc => getSnapshot_reach_congr fuel st st' kc.2
          (fun m hm => h m (ReachE.step hg kc hkc hm))
      have hmapC : n.children.map
            (fun kc => (kc.1, getSnapshotFromNode fuel st' kc.2))
          = n.children.map
            (fun kc => (kc.1, getSnapshotFromNode fuel st kc.2)) := by
        apply List.map_congr_left
        intro kc hkc
        rw [hrec kc hkc]
      cases hk : n.kind with
      | model =>
        simp only [getSnapshotFromNode, hx, hg, hk]
        rw [hmapC]
      | array =>
        cases hv : n.value with
        | arr xs =>
          have hmapA : (xs.enum).map (fun ix =>
                match lookupA n.children (toString ix.1) with
                | some cid => getSnapshotFromNode fuel st' cid
                | none => ix.2)
              = (xs.enum).map (fun ix =>
                match lookupA n.children (toString ix.1) with
                | some cid => getSnapshotFromNode fuel st cid
                | none => ix.2) := by
            apply List.map_congr_left
            intro ix hix
            cases hlk : lookupA n.children (toString ix.1) with
            | none => rfl
            | some cid => exact hrec (toString ix.1, cid) (lookupA_mem hlk)
          simp only [getSnapshotFromNode, hx, hg, hk, hv]
          rw [hmapA]
        | null => simp only [getSnapshotFromNode, hx, hg, hk, hv]
        | bool b => simp only [getSnapshotFromNode, hx, hg, hk, hv]
        | num q => simp only [getSnapshotFromNode, hx, hg, hk, hv]
        | str q => simp only [getSnapshotFromNode, hx, hg, hk, hv]
        | obj fs => simp only [getSnapshotFromNode, hx, hg, hk, hv]
      | map =>
        simp only [getSnapshotFromNode, hx, hg, hk]
        rw [hmapC]
      | reference => simp only [getSnapshotFromNode, hx, hg, hk]
      | scalar => simp only [getSnapshotFromNode, hx, hg, hk]

/-- C7 amended: setValue raises the dead-node error exactly when the
target node is not alive (and nothing is written in that case — the error
is raised before the storage cell is touched); applySnapshot raises it
whenever the target is dead, and never raises it when the target AND every
node of its subtree are alive.  (The claim as frozen says applySnapshot
never raises the error on an alive target; that fails when recursion
reaches a dead child, see the counterexample.) -/
theorem c7_dead_node_errors (st : TreeState) (nid : NodeId) (n : Node)
    (v s : Val) (fuel : Nat) (hg : getNode st nid = some n) :
    (n.isAlive = false →
      setValue st nid v = Except.error (TreeError.deadNode
          "Cannot modify a node that is no longer part of the state tree.")
      ∧ applySnapshotToNode (fuel + 1) st nid s = Except.error (TreeError.deadNode
          "Cannot apply snapshot to a dead node"))
    ∧ (n.isAlive = true → ∃ st', setValue st nid v = Except.ok st')
    ∧ (allAliveF fuel st nid = true →
        ∃ st', applySnapshotToNode fuel st nid s = Except.ok st') := by
  refine ⟨?_, ?_, ?_⟩
  · intro hd
    constructor
    · simp only [setValue, hg, hd, if_true]
    · simp only [applySnapshotToNode, hg, hd, if_true]
  · intro ha
    obtain ⟨st', he, _, _⟩ := setValue_ok st nid n v hg ha
    exact ⟨st', he⟩
  · intro hAl
    obtain ⟨st', he, _⟩ := (applySnapshot_ok_of_allAlive fuel).1 st nid s hAl
    exact ⟨st', he⟩

/-- An alive model root over a destroyed child, still present in the child
map (destroy does not remove a node from the child map of its parent). -/
def c7deadChild : Node :=
  { plainNode with isAlive := false, path := "/c", parent := some 0 }

/-- The alive root. -/
def c7root : Node :=
  { plainNode with kind := Kind.model, children := [("c", 1)] }

/-- The two-node state for the counterexample. -/
def c7state : TreeState :=
  { nodes := [(0, c7root), (1, c7deadChild)], registry := [], events := [] }

/-- C7 counterexample: the root is alive, yet applySnapshot on it raises
the dead-node error, because the incoming value names the key of a dead
child and the recursion reaches that child. -/
theorem c7_counterexample :
    (getNode c7state 0).map (fun n => n.isAlive) = some true
    ∧ applySnapshotToNode (treeFuel c7state) c7state 0 (Val.obj [("c", Val.num 5)])
      = Except.error (TreeError.deadNode "Cannot apply snapshot to a dead node") :=
  ⟨rfl, rfl⟩

theorem c7_dead_node_errors_witness :
    (getNode c10state 0 = some plainNode
      ∧ plainNode.isAlive = true
      ∧ allAliveF 1 c10state 0 = true)
    ∧ ((plainNode.isAlive = false →
        setValue c10state 0 (Val.num 7) = Except.error (TreeError.deadNode
            "Cannot modify a node that is no longer part of the state tree.")
        ∧ applySnapshotToNode 2 c10state 0 (Val.num 7)
          = Except.error (TreeError.deadNode "Cannot apply snapshot to a dead node"))
      ∧ (plainNode.isAlive = true →
          ∃ st', setValue c10state 0 (Val.num 7) = Except.ok st')
      ∧ (allAliveF 1 c10state 0 = true →
          ∃ st', applySnapshotToNode 1 c10state 0 (Val.num 7) = Except.ok st')) :=
  ⟨⟨rfl, rfl, by decide⟩,
   c7_dead_node_errors c10state 0 plainNode (Val.num 7) (Val.num 7) 1 rfl⟩

/-! # Claim C6: add patch with the append marker on a sequence node -/

/-- Project the state out of a successful run (scenario runs are total). -/
def exceptState : Except TreeError TreeState → TreeState
  | Except.ok st => st
  | Except.error _ => { nodes := [], registry := [], events := [] }

/-- Whether a run succeeded. -/
def exceptOk : Except TreeError TreeState → Bool
  | Except.ok _ => true
  | Except.error _ => false

/-- No patch listener ever received a reverse patch whose op is remove. -/
def noRemoveRevB (st : TreeState) : Bool :=
  st.events.all (fun e =>
    match e with
    | Event.patchNotify _ _ _ rp => !(rp.op == "remove")
    | _ => true)

/-- The sequence-valued child at path /items holding two elements. -/
def c6itemsNode (a b : Val) : Node :=
  { plainNode with kind := Kind.array, parent := some 0, path := "/items",
                   value := Val.arr [a, b] }

/-- The root with one patch listener and one snapshot listener. -/
def c6rootNode : Node :=
  { plainNode with kind := Kind.model, children := [("items", 1)],
                   patchListeners := [0], snapshotListeners := [1] }

/-- The two-node tree of the scenario. -/
def c6state (a b : Val) : TreeState :=
  { nodes := [(0, c6rootNode), (1, c6itemsNode a b)], registry := [], events := [] }

/-- The state after applying the append patch. -/
def c6result (a b x : Val) : TreeState :=
  exceptState (applyPatchToNode (treeFuel (c6state a b)) (c6state a b) 0
    (Patch.mk "add" "/items/-" x))

/-- C6 counterexample: applying the add patch with the append marker to the
two-element sequence does produce the three-element appended sequence, but
NO remove patch is generated as the inverse: every reverse patch delivered
to patch listeners is a replace. -/
theorem c6_counterexample :
    exceptOk (applyPatchToNode (treeFuel (c6state (Val.str "a") (Val.str "b")))
        (c6state (Val.str "a") (Val.str "b")) 0
        (Patch.mk "add" "/items/-" (Val.str "x"))) = true
    ∧ nodeValue (c6result (Val.str "a") (Val.str "b") (Val.str "x")) 1
        = some (Val.arr [Val.str "a", Val.str "b", Val.str "x"])
    ∧ noRemoveRevB (c6result (Val.str "a") (Val.str "b") (Val.str "x")) = true :=
  ⟨rfl, rfl, rfl⟩

/-- C6 amended: applying the patch extends the sequence to three elements
with the new value appended at index two, and the patch pair delivered to
listeners is a replace of the whole sequence at the path of the sequence
node; because the splice mutates the stored array in place before setValue
reads the old value, both the forward value and the recorded oldValue of
the reverse patch are the already-mutated three-element sequence (no
remove patch at index two is generated). -/
theorem c6_append_replace_inverse (a b x : Val) :
    exceptOk (applyPatchToNode (treeFuel (c6state a b)) (c6state a b) 0
        (Patch.mk "add" "/items/-" x)) = true
    ∧ nodeValue (c6result a b x) 1 = some (Val.arr [a, b, x])
    ∧ (c6result a b x).events =
        [Event.patchNotify 1 []
            (Patch.mk "replace" "/items" (Val.arr [a, b, x]))
            (RevPatch.mk "replace" "/items" (Val.arr [a, b, x])
              (some (Val.arr [a, b, x]))),
         Event.patchNotify 0 [0]
            (Patch.mk "replace" "/items" (Val.arr [a, b, x]))
            (RevPatch.mk "replace" "/items" (Val.arr [a, b, x])
              (some (Val.arr [a, b, x]))),
         Event.snapshotNotify 0 [1] (Val.obj [("items", Val.arr [a, b, x])])] :=
  ⟨rfl, rfl, rfl⟩

/-! # Claim C8: undo manager grouping on a counter -/

/-- The counter model root. -/
def counterRoot : Node :=
  { plainNode with typeName := "Counter", kind := Kind.model,
                   children := [("count", 1)] }

/-- The count property node. -/
def countNode (n : Int) : Node :=
  { plainNode with typeName := "number", parent := some 0, path := "/count",
                   value := Val.num n }

/-- A counter tree with an undo manager attached at the root. -/
def counterSys (n : Int) : Sys :=
  { tree := { nodes := [(0, counterRoot), (1, countNode n)], registry := [],
              events := [] },
    um := UndoMgr.new, targetId := 0 }

/-- Three increments inside an open group. -/
def c8afterGroup : Except TreeError Sys :=
  match sysSetValue (sysStartGroup (counterSys 0)) 1 (Val.num 1) 1 with
  | Except.error e => Except.error e
  | Except.ok s1 =>
    match sysSetValue s1 1 (Val.num 2) 2 with
    | Except.error e => Except.error e
    | Except.ok s2 =>
      match sysSetValue s2 1 (Val.num 3) 3 with
      | Except.error e => Except.error e
      | Except.ok s3 => Except.ok (sysEndGroup s3 4)

/-- One undo after the group closes. -/
def c8afterUndo : Except TreeError Sys :=
  match c8afterGroup with
  | Except.error e => Except.error e
  | Except.ok s => sysUndo s 5

/-- History length, undoLevels and counter value after the group. -/
def c8groupReport : Option (Nat × Int × Option Val) :=
  match c8afterGroup with
  | Except.ok s =>
    some (s.um.historyEntries.length, s.um.undoLevels, nodeValue s.tree 1)
  | Except.error _ => none

/-- undoLevels and counter value after the undo. -/
def c8undoReport : Option (Int × Option Val) :=
  match c8afterUndo with
  | Except.ok s => some (s.um.undoLevels, nodeValue s.tree 1)
  | Except.error _ => none

/-- History length after an empty group. -/
def c8emptyGroupLen : Nat :=
  ((sysEndGroup (sysStartGroup (counterSys 0)) 1).um.historyEntries).length

/-- C8: three increments between startGroup and endGroup yield exactly one
history entry (undoLevels is one) with the counter at three; a single undo
returns the counter to its pre-group value zero and undoLevels to zero;
and an empty group produces no history entry. -/
theorem c8_undo_grouping :
    c8groupReport = some (1, 1, some (Val.num 3))
    ∧ c8undoReport = some (0, some (Val.num 0))
    ∧ c8emptyGroupLen = 0 :=
  ⟨rfl, rfl, rfl⟩

/-! # Claim C1: setValue notifies in ancestor order, one snapshot at root -/

theorem isAncChain_parent_congr {st st' : TreeState}
    (h : ∀ m, (getNode st' m).map (fun x => x.parent)
        = (getNode st m).map (fun x => x.parent)) :
    ∀ (chain : List NodeId) (nid : NodeId),
      isAncChain st' nid chain = isAncChain st nid chain := by
  intro chain
  induction chain with
  | nil =>
    intro nid
    have hm := h nid
    rw [isAncChain, isAncChain]
    cases h1 : getNode st' nid with
    | none =>
      cases h2 : getNode st nid with
      | none => rfl
      | some n => rw [h1, h2] at hm; simp at hm
    | some n' =>
      cases h2 : getNode st nid with
      | none => rw [h1, h2] at hm; simp at hm
      | some n =>
        rw [h1, h2] at hm
        simp only [Option.map_some'] at hm
        have hp := Option.some.inj hm
        show decide (n'.parent = none) = decide (n.parent = none)
        rw [hp]
  | cons q rest ih =>
    intro nid
    have hm := h nid
    rw [isAncChain, isAncChain]
    cases h1 : getNode st' nid with
    | none =>
      cases h2 : getNode st nid with
      | none => rfl
      | some n => rw [h1, h2] at hm; simp at hm
    | some n' =>
      cases h2 : getNode st nid with
      | none => rw [h1, h2] at hm; simp at hm
      | some n =>
        rw [h1, h2] at hm
        simp only [Option.map_some'] at hm
        have hp := Option.some.inj hm
        show (decide (n'.parent = some q) && isAncChain st' q rest)
            = (decide (n.parent = some q) && isAncChain st q rest)
        rw [hp, ih q]

/-- notifyPatch delivers the same patch pair to the listener set of the
node, then of each ancestor in chain order, appending exactly one event
per visited node. -/
theorem notifyPatchGo_spec :
    ∀ (chain : List NodeId) (fuel : Nat) (st : TreeState) (nid : NodeId)
      (p : Patch) (rp : RevPatch),
      isAncChain st nid chain = true → chain.length < fuel →
      notifyPatchGo fuel st nid p rp =
        { st with events := st.events ++
            (nid :: chain).map (fun m =>
              Event.patchNotify m (patchListenersOf st m) p rp) } := by
  intro chain
  induction chain with
  | nil =>
    intro fuel st nid p rp hch hlen
    cases fuel with
    | zero => exact absurd hlen (Nat.not_lt_zero _)
    | succ fuel =>
      rw [isAncChain] at hch
      cases hg : getNode st nid with
      | none => rw [hg] at hch; simp at hch
      | some n =>
        rw [hg] at hch
        simp only [decide_eq_true_eq] at hch
        simp only [notifyPatchGo, hg, hch]
        simp [patchListenersOf, hg]
  | cons q rest ih =>
    intro fuel st nid p rp hch hlen
    cases fuel with
    | zero => exact absurd hlen (Nat.not_lt_zero _)
    | succ fuel =>
      rw [isAncChain] at hch
      cases hg : getNode st nid with
      | none => rw [hg] at hch; simp at hch
      | some n =>
        rw [hg] at hch
        simp only [Bool.and_eq_true, decide_eq_true_eq] at hch
        obtain ⟨hpar, hrest⟩ := hch
        simp only [notifyPatchGo, hg, hpar]
        have hch1 : isAncChain
            { st with events := st.events ++
                [Event.patchNotify nid n.patchListeners p rp] } q rest = true := by
          have hcg := @isAncChain_parent_congr st
            { st with events := st.events ++
                [Event.patchNotify nid n.patchListeners p rp] }
            (fun m => rfl) rest q
          rw [hcg]
          exact hrest
        rw [ih fuel _ q p rp hch1 (Nat.lt_of_succ_lt_succ hlen)]
        have hf : (fun m => Event.patchNotify m (patchListenersOf
            { st with events := st.events ++
                [Event.patchNotify nid n.patchListeners p rp] } m) p rp)
            = (fun m => Event.patchNotify m (patchListenersOf st m) p rp) := rfl
        rw [hf]
        simp [patchListenersOf, hg, List.append_assoc]

/-- getRoot lands on the last node of the ancestor chain. -/
theorem getRootGo_spec :
    ∀ (chain : List NodeId) (fuel : Nat) (st : TreeState) (nid : NodeId),
      isAncChain st nid chain = true → chain.length < fuel →
      getRootGo fuel st nid = chain.getLastD nid := by
  intro chain
  induction chain with
  | nil =>
    intro fuel st nid hch hlen
    cases fuel with
    | zero => exact absurd hlen (Nat.not_lt_zero _)
    | succ fuel =>
      rw [isAncChain] at hch
      cases hg : getNode st nid with
      | none => rw [hg] at hch; simp at hch
      | some n =>
        rw [hg] at hch
        simp only [decide_eq_true_eq] at hch
        simp [getRootGo, hg, hch]
  | cons q rest ih =>
    intro fuel st nid hch hlen
    cases fuel with
    | zero => exact absurd hlen (Nat.not_lt_zero _)
    | succ fuel =>
      rw [isAncChain] at hch
      cases hg : getNode st nid with
      | none => rw [hg] at hch; simp at hch
      | some n =>
        rw [hg] at hch
        simp only [Bool.and_eq_true, decide_eq_true_eq] at hch
        obtain ⟨hpar, hrest⟩ := hch
        simp only [getRootGo, hg, hpar]
        rw [ih fuel st q hrest (Nat.lt_of_succ_lt_succ hlen)]
        cases rest <;> rfl

/-- The snapshot derivation reads only the node heap. -/
theorem getSnapshot_nodes_congr :
    ∀ (fuel : Nat) (st st' : TreeState),
      (∀ m, getNode st' m = getNode st m) →
      ∀ c, getSnapshotFromNode fuel st' c = getSnapshotFromNode fuel st c
  | 0, _, _, _, _ => rfl
  | fuel + 1, st, st', h, c => by
    have ih : ∀ c2, getSnapshotFromNode fuel st' c2 = getSnapshotFromNode fuel st c2 :=
      getSnapshot_nodes_congr fuel st st' h
    simp only [getSnapshotFromNode, h, ih]

/-- The last node of an ancestor chain exists in the heap. -/
theorem ancChain_last_exists :
    ∀ (chain : List NodeId) (st : TreeState) (nid : NodeId),
      isAncChain st nid chain = true →
      ∃ rn, getNode st (chain.getLastD nid) = some rn := by
  intro chain
  induction chain with
  | nil =>
    intro st nid hch
    rw [isAncChain] at hch
    cases hg : getNode st nid with
    | none => rw [hg] at hch; simp at hch
    | some n => exact ⟨n, by simpa using hg⟩
  | cons q rest ih =>
    intro st nid hch
    rw [isAncChain] at hch
    cases hg : getNode st nid with
    | none => rw [hg] at hch; simp at hch
    | some n =>
      rw [hg] at hch
      simp only [Bool.and_eq_true, decide_eq_true_eq] at hch
      have hrec := ih st q hch.2
      have hx : (q :: rest).getLastD nid = rest.getLastD q := by
        cases rest <;> rfl
      rw [hx]
      exact hrec

/-- C1: a setValue call on an alive node with ancestor chain as listed
appends exactly the patch notifications in ancestor order — the node, then
each ancestor up to the root — every one carrying the same forward replace
patch at the node path and the inverse carrying the old value, followed by
exactly one snapshot notification, delivered to the snapshot listeners of
the root only. -/
theorem c1_setValue_notifies_in_ancestor_order
    (st : TreeState) (nid : NodeId) (n : Node) (v : Val) (chain : List NodeId)
    (hg : getNode st nid = some n) (ha : n.isAlive = true)
    (hch : isAncChain st nid chain = true)
    (hlen : chain.length ≤ st.nodes.length) :
    ∃ st', setValue st nid v = Except.ok st'
      ∧ st'.nodes = (setNode st nid { n with value := v }).nodes
      ∧ st'.registry = st.registry
      ∧ st'.events = st.events
          ++ (nid :: chain).map (fun m =>
              Event.patchNotify m (patchListenersOf st m)
                (Patch.mk "replace" n.path v)
                (RevPatch.mk "replace" n.path n.value (some n.value)))
          ++ [Event.snapshotNotify (chain.getLastD nid)
               (snapshotListenersOf st (chain.getLastD nid))
               (getSnapshotFromNode (treeFuel st)
                 (setNode st nid { n with value := v }) (chain.getLastD nid))] := by
  have hne : getNode st nid ≠ none := by
    rw [hg]
    exact fun hc => Option.noConfusion hc
  have hfuelW : treeFuel (setNode st nid { n with value := v, isAlive := true }) = treeFuel st :=
    treeFuel_setNode st nid _ hne
  have hparent : ∀ m,
      (getNode (setNode st nid { n with value := v, isAlive := true }) m).map (fun x => x.parent)
        = (getNode st m).map (fun x => x.parent) := by
    intro m
    by_cases hm : m = nid
    · subst hm
      rw [getNode_setNode_self, hg]
      rfl
    · rw [getNode_setNode_ne st nid m _ hm]
  have hpl : ∀ m,
      patchListenersOf (setNode st nid { n with value := v, isAlive := true }) m
        = patchListenersOf st m := by
    intro m
    unfold patchListenersOf
    by_cases hm : m = nid
    · subst hm
      rw [getNode_setNode_self, hg]
    · rw [getNode_setNode_ne st nid m _ hm]
  have hchW : isAncChain (setNode st nid { n with value := v, isAlive := true }) nid chain = true := by
    rw [isAncChain_parent_congr hparent chain nid]
    exact hch
  have hlenW : chain.length < treeFuel (setNode st nid { n with value := v, isAlive := true }) := by
    rw [hfuelW]
    exact Nat.lt_succ_of_le hlen
  simp only [setValue, hg, ha, Bool.true_eq_false, if_false]
  rw [notifyPatchGo_spec chain _ _ nid _ _ hchW hlenW]
  set stW := setNode st nid { n with value := v, isAlive := true } with hstW
  set st2 : TreeState :=
    ({ stW with events := stW.events ++
      (nid :: chain).map (fun m =>
        Event.patchNotify m (patchListenersOf stW m)
          (Patch.mk "replace" n.path v)
          (RevPatch.mk "replace" n.path n.value (some n.value))) } : TreeState) with hst2
  have hn2 : st2.nodes = stW.nodes := by rw [hst2]
  have hr2 : st2.registry = stW.registry := by rw [hst2]
  have he2 : st2.events = stW.events ++
      (nid :: chain).map (fun m =>
        Event.patchNotify m (patchListenersOf stW m)
          (Patch.mk "replace" n.path v)
          (RevPatch.mk "replace" n.path n.value (some n.value))) := by rw [hst2]
  have hgets : ∀ m, getNode st2 m = getNode stW m := by
    intro m
    unfold getNode
    rw [hn2]
  have hfuel2 : treeFuel st2 = treeFuel stW := by
    unfold treeFuel
    rw [hn2]
  have hch2 : isAncChain st2 nid chain = true := by
    rw [@isAncChain_parent_congr stW st2 (fun m => by rw [hgets m]) chain nid]
    exact hchW
  have hlen2 : chain.length < treeFuel st2 := by
    rw [hfuel2]
    exact hlenW
  obtain ⟨rn, hrn⟩ := ancChain_last_exists chain st nid hch
  have hroot : ∃ rn2, getNode st2 (chain.getLastD nid) = some rn2
      ∧ rn2.snapshotListeners = rn.snapshotListeners := by
    rw [hgets]
    by_cases hr : chain.getLastD nid = nid
    · rw [hr] at hrn ⊢
      rw [hg] at hrn
      cases Option.some.inj hrn
      exact ⟨{ n with value := v, isAlive := true },
        by rw [hstW]; exact getNode_setNode_self st nid _, rfl⟩
    · exact ⟨rn,
        by rw [hstW]; exact (getNode_setNode_ne st nid _ _ hr).trans hrn, rfl⟩
  obtain ⟨rn2, hrn2v, hlis⟩ := hroot
  have hsnap : getSnapshotFromNode (treeFuel st2) st2 (chain.getLastD nid)
      = getSnapshotFromNode (treeFuel st) stW (chain.getLastD nid) := by
    rw [getSnapshot_nodes_congr (treeFuel st2) stW st2 hgets (chain.getLastD nid)]
    rw [hfuel2, hstW, hfuelW]
  have hsl : snapshotListenersOf st (chain.getLastD nid) = rn.snapshotListeners := by
    unfold snapshotListenersOf
    rw [hrn]
  refine ⟨_, rfl, ?_, ?_, ?_⟩
  · rw [nodes_notifySnapshotChange, hn2]
  · rw [registry_notifySnapshotChange, hr2, hstW]
    rfl
  · simp only [notifySnapshotChange]
    rw [getRootGo_spec chain _ st2 nid hch2 hlen2]
    rw [hrn2v]
    show st2.events ++ [Event.snapshotNotify (chain.getLastD nid)
        rn2.snapshotListeners (getSnapshotFromNode (treeFuel st2) st2
          (chain.getLastD nid))] = _
    rw [hsnap, hlis, he2, hsl]
    simp only [hpl]
    rw [hstW]
    rfl

/-- A three-node chain: leaf 0 under mid 1 under root 2, with listeners. -/
def c1leaf : Node :=
  { plainNode with parent := some 1, path := "/a/b", patchListeners := [11] }

def c1mid : Node :=
  { plainNode with
    parent := some 2, path := "/a", snapshotListeners := [7], patchListeners := [12] }

def c1root : Node :=
  { plainNode with snapshotListeners := [9], patchListeners := [13] }

def c1state : TreeState :=
  { nodes := [(0, c1leaf), (1, c1mid), (2, c1root)], registry := [], events := [] }

theorem c1_setValue_notifies_in_ancestor_order_witness :
    (getNode c1state 0 = some c1leaf ∧ c1leaf.isAlive = true
      ∧ isAncChain c1state 0 [1, 2] = true
      ∧ ([1, 2] : List NodeId).length ≤ c1state.nodes.length)
    ∧ (∃ st', setValue c1state 0 (Val.num 5) = Except.ok st'
        ∧ st'.nodes = (setNode c1state 0 { c1leaf with value := Val.num 5 }).nodes
        ∧ st'.registry = c1state.registry
        ∧ st'.events = c1state.events
            ++ ((0 : NodeId) :: [1, 2]).map (fun m =>
                Event.patchNotify m (patchListenersOf c1state m)
                  (Patch.mk "replace" c1leaf.path (Val.num 5))
                  (RevPatch.mk "replace" c1leaf.path c1leaf.value (some c1leaf.value)))
            ++ [Event.snapshotNotify (([1, 2] : List NodeId).getLastD 0)
                 (snapshotListenersOf c1state (([1, 2] : List NodeId).getLastD 0))
                 (getSnapshotFromNode (treeFuel c1state)
                   (setNode c1state 0 { c1leaf with value := Val.num 5 })
                   (([1, 2] : List NodeId).getLastD 0))]) :=
  ⟨⟨rfl, rfl, rfl, by decide⟩,
    c1_setValue_notifies_in_ancestor_order c1state 0 c1leaf (Val.num 5) [1, 2]
      rfl rfl rfl (by decide)⟩

/-- C2: under the structural well-formedness of reachable states — dead
nodes are childless and the child graph is a forest, witnessed by a rank
function — destroy is idempotent; it leaves the target dead with empty
child map and cleared listener sets; it fires the lifecycle event with
false; every former descendant (every node reached by child keys from the
target) is dead afterwards; and the identifier binding recorded on the
target or on any live former descendant no longer resolves. -/
theorem c2_destroy_completeness
    (st : TreeState) (nid : NodeId) (n : Node) (rank : NodeId → Nat)
    (hg : getNode st nid = some n) (ha : n.isAlive = true)
    (hdc : deadChildlessB st = true) (hrk : rankOK rank st)
    (hfl : rank nid < treeFuel st) :
    destroy (destroy st nid) nid = destroy st nid
    ∧ (∃ n', getNode (destroy st nid) nid = some n' ∧ n'.isAlive = false
        ∧ n'.children = [] ∧ n'.snapshotListeners = [] ∧ n'.patchListeners = [])
    ∧ Event.lifecycle nid false ∈ (destroy st nid).events
    ∧ (∀ ks m, descendPath st nid ks = some m →
        ∀ nm', getNode (destroy st nid) m = some nm' → nm'.isAlive = false)
    ∧ (∀ ks m nm tn iv, descendPath st nid ks = some m →
        getNode st m = some nm → nm.isAlive = true →
        nm.identifierTypeName = some tn → nm.identifierValue = some iv →
        resolveIdentifier (destroy st nid) tn iv = none) := by
  obtain ⟨Kmain, killmain, shmain, dcmain⟩ :=
    destroyGo_main rank (treeFuel st) st nid hrk hdc hfl
  have hseq : destroy st nid = destroySeq st.nodes.length st nid n :=
    destroyGo_succ_eq st.nodes.length st nid n hg ha
  have DA : DProps st (destroyFold st.nodes.length n.children st) :=
    dprops_foldl (fun u kc => dprops_destroyGo st.nodes.length u kc.2) n.children st
  have hsomeA : (getNode (destroyFold st.nodes.length n.children st) nid).isSome
      = true := by
    rw [isSome_of_stable DA.stable nid, hg]
    rfl
  obtain ⟨nA, hgA⟩ := Option.isSome_iff_exists.mp hsomeA
  have hfin : getNode (destroy st nid) nid = some { nA with
      children := [], isAlive := false,
      snapshotListeners := [], patchListeners := [] } := by
    rw [hseq]
    exact destroySeq_getNode_self st.nodes.length st nid n nA hgA
  have hdead : ∀ ks m, descendPath st nid ks = some m →
      ∀ nm', getNode (destroy st nid) m = some nm' → nm'.isAlive = false := by
    intro ks m hp nm' hgm
    exact Kmain nid n _ hg hfin ha rfl ks m hp nm' hgm
  refine ⟨?_, ⟨_, hfin, rfl, rfl, rfl, rfl⟩, ?_, hdead, ?_⟩
  · -- idempotence: the second call sees a dead target and returns at once
    show destroyGo (treeFuel (destroy st nid)) (destroy st nid) nid = destroy st nid
    rw [show treeFuel (destroy st nid) = (destroy st nid).nodes.length + 1 from rfl]
    rw [destroyGo, hfin]
    simp
  · rw [hseq, destroySeq_events]
    simp
  · intro ks m nm tn iv hp hgm hAm htm hvm
    have hinv : RegInv tn iv m (destroy st nid) :=
      destroyGo_reg tn iv m (treeFuel st) st nid
        (Or.inl ⟨nm, hgm, hAm, htm, hvm⟩)
    cases hinv with
    | inr hr => exact hr
    | inl hl =>
      obtain ⟨nm2, hgm2, hA2, _, _⟩ := hl
      have := hdead ks m hp nm2 hgm2
      rw [hA2] at this
      simp at this

/-- A two-node identified tree: registered root 0 with registered child 1. -/
def c2child : Node :=
  { plainNode with
    typeName := "Kid", parent := some 0, path := "/kid",
    identifierTypeName := some "Kid", identifierValue := some (Ident.str "k1") }

def c2root : Node :=
  { plainNode with
    typeName := "Root", children := [("kid", 1)],
    identifierTypeName := some "Root", identifierValue := some (Ident.str "r1") }

def c2state : TreeState :=
  { nodes := [(0, c2root), (1, c2child)],
    registry := [("Root", [(Ident.str "r1", 0)]), ("Kid", [(Ident.str "k1", 1)])],
    events := [] }

def c2rank : NodeId → Nat := fun m => if m = 0 then 1 else 0

theorem c2_destroy_completeness_witness :
    (getNode c2state 0 = some c2root ∧ c2root.isAlive = true
      ∧ deadChildlessB c2state = true ∧ rankOK c2rank c2state
      ∧ c2rank 0 < treeFuel c2state)
    ∧ (destroy (destroy c2state 0) 0 = destroy c2state 0
      ∧ (∃ n', getNode (destroy c2state 0) 0 = some n' ∧ n'.isAlive = false
          ∧ n'.children = [] ∧ n'.snapshotListeners = [] ∧ n'.patchListeners = [])
      ∧ Event.lifecycle 0 false ∈ (destroy c2state 0).events
      ∧ (∀ ks m, descendPath c2state 0 ks = some m →
          ∀ nm', getNode (destroy c2state 0) m = some nm' → nm'.isAlive = false)
      ∧ (∀ ks m nm tn iv, descendPath c2state 0 ks = some m →
          getNode c2state m = some nm → nm.isAlive = true →
          nm.identifierTypeName = some tn → nm.identifierValue = some iv →
          resolveIdentifier (destroy c2state 0) tn iv = none)) :=
  ⟨⟨rfl, rfl, rfl,
    (by
      intro m nm kc hm hkc
      cases m with
      | zero =>
        replace hm : some c2root = some nm := hm
        cases Option.some.inj hm
        replace hkc : kc ∈ [("kid", (1 : NodeId))] := hkc
        cases hkc with
        | head => decide
        | tail _ h2 => cases h2
      | succ m1 =>
        cases m1 with
        | zero =>
          replace hm : some c2child = some nm := hm
          cases Option.some.inj hm
          replace hkc : kc ∈ ([] : List (String × NodeId)) := hkc
          cases hkc
        | succ m2 =>
          replace hm : (none : Option Node) = some nm := hm
          cases hm),
    by decide⟩,
    c2_destroy_completeness c2state 0 c2root c2rank rfl rfl rfl
      (by
        intro m nm kc hm hkc
        cases m with
        | zero =>
          replace hm : some c2root = some nm := hm
          cases Option.some.inj hm
          replace hkc : kc ∈ [("kid", (1 : NodeId))] := hkc
          cases hkc with
          | head => decide
          | tail _ h2 => cases h2
        | succ m1 =>
          cases m1 with
          | zero =>
            replace hm : some c2child = some nm := hm
            cases Option.some.inj hm
            replace hkc : kc ∈ ([] : List (String × NodeId)) := hkc
            cases hkc
          | succ m2 =>
            replace hm : (none : Option Node) = some nm := hm
            cases hm)
      (by decide)⟩

/-- A three-node chain for path experiments: root 0 with child a = 1, which
has child b = 2. -/
def c3root : Node :=
  { plainNode with children := [("a", 1)] }

def c3mid : Node :=
  { plainNode with parent := some 0, path := "/a", children := [("b", 2)] }

def c3leaf : Node :=
  { plainNode with parent := some 1, path := "/a/b" }

def c3state : TreeState :=
  { nodes := [(0, c3root), (1, c3mid), (2, c3leaf)], registry := [], events := [] }

def c3rank : NodeId → Nat := fun m => 2 - m

/-- C3 counterexample: detach does not re-derive descendant paths.  After
detaching node 1 (path "/a", with child b = 2), node 1 is a live root with
empty path, its live descendant 2 is reached by the single child key "b",
so the path invariant demands "/b" — but node 2 still carries "/a/b". -/
theorem c3_counterexample :
    (∃ n1, getNode (detach c3state 1) 1 = some n1
      ∧ n1.path = "" ∧ n1.parent = none ∧ n1.isAlive = true)
    ∧ descendPath (detach c3state 1) 1 ["b"] = some 2
    ∧ (∃ n2, getNode (detach c3state 1) 2 = some n2 ∧ n2.isAlive = true
        ∧ n2.path = "/a/b")
    ∧ chainPath ["b"] = "/b"
    ∧ ("/a/b" : String) ≠ "/b" :=
  ⟨⟨_, rfl, rfl, rfl, rfl⟩, rfl, ⟨_, rfl, rfl, rfl⟩, rfl, by decide⟩

/-- C3 (amended): destroy never changes the path or parent of any
surviving node; detach turns the node into a parentless root with empty
path and removes it from the parent child map, but touches no other node —
in particular every former descendant keeps its now-stale path, so the
path invariant is not restored below a detached node; addChild rebases the
attached child at parentPath/key and re-derives the path of its entire
subtree through updatePathRecursively — every node reached from the child
by the key list ks ends at parentPath/key followed by the slash-join of
ks — and records the child in the parent child map. -/
theorem c3_path_maintenance
    (st : TreeState) (rank : NodeId → Nat) (hrk : rankOK rank st)
    (hts : TreeShaped st) :
    (∀ nid m n', getNode (destroy st nid) m = some n' →
      ∃ n0, getNode st m = some n0 ∧ n'.path = n0.path ∧ n'.parent = n0.parent)
    ∧ (∀ nid n pid, getNode st nid = some n → n.parent = some pid → pid ≠ nid →
        (∃ n', getNode (detach st nid) nid = some n'
          ∧ n'.path = "" ∧ n'.parent = none
          ∧ n'.children = n.children ∧ n'.isAlive = n.isAlive ∧ n'.value = n.value)
        ∧ (∀ p, getNode st pid = some p →
            ∃ p', getNode (detach st nid) pid = some p'
              ∧ p'.children = removeFirstVal p.children nid
              ∧ p'.path = p.path)
        ∧ (∀ m, m ≠ nid → m ≠ pid → getNode (detach st nid) m = getNode st m))
    ∧ (∀ pid key cid p c, getNode st pid = some p → getNode st cid = some c →
        cid ≠ pid → rank cid < rank pid → rank cid < treeFuel st →
        (∃ c', getNode (addChild st pid key cid) cid = some c'
          ∧ c'.path = p.path ++ "/" ++ key ∧ c'.parent = some pid)
        ∧ (∃ p', getNode (addChild st pid key cid) pid = some p'
          ∧ p'.children = updateA p.children key cid ∧ p'.path = p.path)
        ∧ (∀ ks m nm0, descendPath st cid ks = some m → getNode st m = some nm0 →
            ∃ nm, getNode (addChild st pid key cid) m = some nm
              ∧ nm.path = (p.path ++ "/" ++ key) ++ chainPath ks)) := by
  refine ⟨?_, ?_, ?_⟩
  · -- destroy preserves paths and parents
    intro nid m n' hgm
    have hs : (getNode (destroy st nid) m).map eraseD = (getNode st m).map eraseD :=
      (dprops_destroyGo (treeFuel st) st nid).stable m
    rw [hgm] at hs
    cases hgs : getNode st m with
    | none =>
      rw [hgs] at hs
      simp at hs
    | some n0 =>
      rw [hgs] at hs
      simp only [Option.map_some'] at hs
      have hpp := pathParent_of_eraseD (Option.some.inj hs)
      exact ⟨n0, rfl, hpp.1, hpp.2⟩
  · -- detach
    intro nid n pid hg hpar hpn
    have hdet : detach st nid =
        setNodeF (setNodeF st pid
            (fun p => { p with children := removeFirstVal p.children nid })) nid
          (fun q => { q with parent := none, path := "" }) := by
      simp only [detach, hg, hpar]
    have hnp : nid ≠ pid := fun e => hpn e.symm
    have hg1 : getNode (setNodeF st pid
        (fun p => { p with children := removeFirstVal p.children nid })) nid
        = some n := by
      rw [getNode_setNodeF_ne _ pid nid _ hnp]
      exact hg
    refine ⟨?_, ?_, ?_⟩
    · rw [hdet]
      exact ⟨_, getNode_setNodeF_self _ nid n _ hg1, rfl, rfl, rfl, rfl, rfl⟩
    · intro p hp
      rw [hdet]
      rw [getNode_setNodeF_ne _ nid pid _ hpn]
      exact ⟨_, getNode_setNodeF_self _ pid p _ hp, rfl, rfl⟩
    · intro m hmn hmp
      rw [hdet, getNode_setNodeF_ne _ nid m _ hmn, getNode_setNodeF_ne _ pid m _ hmp]
  · -- addChild
    intro pid key cid p c hp hc hcp hrankpc hflc
    have hadd : addChild st pid key cid =
        setNodeF
          (setNodeF
            (updatePathRec
              (treeFuel (setNodeF st cid (fun q => { q with parent := some pid })))
              (setNodeF st cid (fun q => { q with parent := some pid }))
              cid (p.path ++ "/" ++ key))
            cid
            (fun q => { q with
              env := match q.env with | some e => some e | none => p.env }))
          pid (fun q => { q with children := updateA q.children key cid }) := by
      simp only [addChild, hp, hc]
    have hg1c : getNode (setNodeF st cid (fun q => { q with parent := some pid })) cid
        = some { c with parent := some pid } :=
      getNode_setNodeF_self st cid c _ hc
    have hr1 : rankOK rank (setNodeF st cid (fun q => { q with parent := some pid })) :=
      rankOK_setNodeF hrk cid _ (fun q => rfl)
    have hg2c : getNode (updatePathRec
        (treeFuel (setNodeF st cid (fun q => { q with parent := some pid })))
        (setNodeF st cid (fun q => { q with parent := some pid }))
        cid (p.path ++ "/" ++ key)) cid
        = some { c with parent := some pid, path := p.path ++ "/" ++ key } :=
      updatePathRec_self rank
        (setNodeF st cid (fun q => { q with parent := some pid })).nodes.length
        _ cid _ { c with parent := some pid } hr1 hg1c
    have hg1p : getNode (setNodeF st cid (fun q => { q with parent := some pid })) pid
        = some p := by
      rw [getNode_setNodeF_ne _ cid pid _ (fun e => hcp e.symm)]
      exact hp
    have hg2p : getNode (updatePathRec
        (treeFuel (setNodeF st cid (fun q => { q with parent := some pid })))
        (setNodeF st cid (fun q => { q with parent := some pid }))
        cid (p.path ++ "/" ++ key)) pid = some p := by
      rw [updatePathRec_high rank _ _ cid _ pid hr1 hrankpc]
      exact hg1p
    have hag1c : ∀ m2,
        (getNode (setNodeF st cid (fun q => { q with parent := some pid })) m2).map
          (fun q => q.children)
        = (getNode st m2).map (fun q => q.children) := by
      intro m2
      by_cases hm2 : m2 = cid
      · subst hm2
        rw [getNode_setNodeF_self st m2 c _ hc, hc]
        rfl
      · rw [getNode_setNodeF_ne _ cid m2 _ hm2]
    have hts1 : TreeShaped (setNodeF st cid (fun q => { q with parent := some pid })) :=
      treeShaped_congr_children hag1c hts
    have hfuel1 :
        treeFuel (setNodeF st cid (fun q => { q with parent := some pid }))
        = treeFuel st := by
      unfold setNodeF
      rw [hc]
      exact treeFuel_setNode st cid _ (by rw [hc]; exact fun h2 => Option.noConfusion h2)
    have hflc1 : rank cid
        < treeFuel (setNodeF st cid (fun q => { q with parent := some pid })) := by
      rw [hfuel1]
      exact hflc
    rw [hadd]
    refine ⟨?_, ?_, ?_⟩
    · have hgfin : getNode
          (setNodeF
            (setNodeF
              (updatePathRec
                (treeFuel (setNodeF st cid (fun q => { q with parent := some pid })))
                (setNodeF st cid (fun q => { q with parent := some pid }))
                cid (p.path ++ "/" ++ key))
              cid
              (fun q => { q with
                env := match q.env with | some e => some e | none => p.env }))
            pid (fun q => { q with children := updateA q.children key cid })) cid
          = some { c with
              parent := some pid, path := p.path ++ "/" ++ key,
              env := match c.env with | some e => some e | none => p.env } := by
        rw [getNode_setNodeF_ne _ pid cid _ hcp]
        exact getNode_setNodeF_self _ cid _ _ hg2c
      exact ⟨_, hgfin, rfl, rfl⟩
    · have hgfinp : getNode
          (setNodeF
            (setNodeF
              (updatePathRec
                (treeFuel (setNodeF st cid (fun q => { q with parent := some pid })))
                (setNodeF st cid (fun q => { q with parent := some pid }))
                cid (p.path ++ "/" ++ key))
              cid
              (fun q => { q with
                env := match q.env with | some e => some e | none => p.env }))
            pid (fun q => { q with children := updateA q.children key cid })) pid
          = some { p with children := updateA p.children key cid } := by
        refine getNode_setNodeF_self _ pid p _ ?_
        rw [getNode_setNodeF_ne _ cid pid _ (fun e => hcp e.symm)]
        exact hg2p
      exact ⟨_, hgfinp, rfl, rfl⟩
    · intro ks m nm0 hks hgm0
      have hdp1 : descendPath
          (setNodeF st cid (fun q => { q with parent := some pid })) cid ks
          = some m := by
        rw [descendPath_congr_children hag1c ks cid]
        exact hks
      have hmp : m ≠ pid := by
        intro e
        have h1 : rank m ≤ rank cid :=
          rank_of_reachE hrk (descendPath_reachE ks cid m hks)
        rw [e] at h1
        exact absurd (lt_of_le_of_lt h1 hrankpc) (lt_irrefl _)
      by_cases hmc : m = cid
      · subst hmc
        obtain ⟨nm2, hgm2, hpath2, _⟩ :=
          updatePathRec_full rank
            (treeFuel (setNodeF st m (fun q => { q with parent := some pid })))
            (setNodeF st m (fun q => { q with parent := some pid }))
            m (p.path ++ "/" ++ key) hr1 hts1 hflc1 ks m hdp1
            { c with parent := some pid } (getNode_setNodeF_self st m c _ hc)
        rw [getNode_setNodeF_ne _ pid m _ hmp]
        exact ⟨_, getNode_setNodeF_self _ m nm2 _ hgm2, hpath2⟩
      · obtain ⟨nm2, hgm2, hpath2, _⟩ :=
          updatePathRec_full rank
            (treeFuel (setNodeF st cid (fun q => { q with parent := some pid })))
            (setNodeF st cid (fun q => { q with parent := some pid }))
            cid (p.path ++ "/" ++ key) hr1 hts1 hflc1 ks m hdp1
            nm0 (by rw [getNode_setNodeF_ne _ cid m _ hmc]; exact hgm0)
        rw [getNode_setNodeF_ne _ pid m _ hmp, getNode_setNodeF_ne _ cid m _ hmc]
        exact ⟨nm2, hgm2, hpath2⟩

theorem c3_path_maintenance_witness :
    rankOK c3rank c3state
    ∧ TreeShaped c3state
    ∧ ((∀ nid m n', getNode (destroy c3state nid) m = some n' →
        ∃ n0, getNode c3state m = some n0
          ∧ n'.path = n0.path ∧ n'.parent = n0.parent)
      ∧ (∀ nid n pid, getNode c3state nid = some n → n.parent = some pid →
          pid ≠ nid →
          (∃ n', getNode (detach c3state nid) nid = some n'
            ∧ n'.path = "" ∧ n'.parent = none
            ∧ n'.children = n.children ∧ n'.isAlive = n.isAlive
            ∧ n'.value = n.value)
          ∧ (∀ p, getNode c3state pid = some p →
              ∃ p', getNode (detach c3state nid) pid = some p'
                ∧ p'.children = removeFirstVal p.children nid
                ∧ p'.path = p.path)
          ∧ (∀ m, m ≠ nid → m ≠ pid →
              getNode (detach c3state nid) m = getNode c3state m))
      ∧ (∀ pid key cid p c, getNode c3state pid = some p →
          getNode c3state cid = some c → cid ≠ pid → c3rank cid < c3rank pid →
          c3rank cid < treeFuel c3state →
          (∃ c', getNode (addChild c3state pid key cid) cid = some c'
            ∧ c'.path = p.path ++ "/" ++ key ∧ c'.parent = some pid)
          ∧ (∃ p', getNode (addChild c3state pid key cid) pid = some p'
            ∧ p'.children = updateA p.children key cid ∧ p'.path = p.path)
          ∧ (∀ ks m nm0, descendPath c3state cid ks = some m →
              getNode c3state m = some nm0 →
              ∃ nm, getNode (addChild c3state pid key cid) m = some nm
                ∧ nm.path = (p.path ++ "/" ++ key) ++ chainPath ks))) := by
  have hrk : rankOK c3rank c3state := by
    intro m nm kc hm hkc
    cases m with
    | zero =>
      replace hm : some c3root = some nm := hm
      cases Option.some.inj hm
      replace hkc : kc ∈ [("a", (1 : NodeId))] := hkc
      cases hkc with
      | head => decide
      | tail _ h2 => cases h2
    | succ m1 =>
      cases m1 with
      | zero =>
        replace hm : some c3mid = some nm := hm
        cases Option.some.inj hm
        replace hkc : kc ∈ [("b", (2 : NodeId))] := hkc
        cases hkc with
        | head => decide
        | tail _ h2 => cases h2
      | succ m2 =>
        cases m2 with
        | zero =>
          replace hm : some c3leaf = some nm := hm
          cases Option.some.inj hm
          replace hkc : kc ∈ ([] : List (String × NodeId)) := hkc
          cases hkc
        | succ m3 =>
          replace hm : (none : Option Node) = some nm := hm
          cases hm
  have hts : TreeShaped c3state := by
    intro x n hg kc1 h1 kc2 h2 hne m hr1 hr2
    cases x with
    | zero =>
      replace hg : some c3root = some n := hg
      cases Option.some.inj hg
      replace h1 : kc1 ∈ [("a", (1 : NodeId))] := h1
      replace h2 : kc2 ∈ [("a", (1 : NodeId))] := h2
      cases h1 with
      | head =>
        cases h2 with
        | head => exact hne rfl
        | tail _ hx => cases hx
      | tail _ hx => cases hx
    | succ x1 =>
      cases x1 with
      | zero =>
        replace hg : some c3mid = some n := hg
        cases Option.some.inj hg
        replace h1 : kc1 ∈ [("b", (2 : NodeId))] := h1
        replace h2 : kc2 ∈ [("b", (2 : NodeId))] := h2
        cases h1 with
        | head =>
          cases h2 with
          | head => exact hne rfl
          | tail _ hx => cases hx
        | tail _ hx => cases hx
      | succ x2 =>
        cases x2 with
        | zero =>
          replace hg : some c3leaf = some n := hg
          cases Option.some.inj hg
          replace h1 : kc1 ∈ ([] : List (String × NodeId)) := h1
          cases h1
        | succ x3 =>
          replace hg : (none : Option Node) = some n := hg
          cases hg
  exact ⟨hrk, hts, c3_path_maintenance c3state c3rank hrk hts⟩

/-- C5: applying a plain-object snapshot to a model node without a pre
transform runs exactly the merge loop over the existing children — the
recursion enters only children whose keys occur in the incoming object —
every heap write of the whole application is a value write, and a child
whose key is absent, together with everything reachable from it (provided
it is not aliased inside the subtree of a recursed-into sibling, which no
tree-shaped state allows), keeps its nodes and its snapshot bit for bit. -/
theorem c5_model_merge
    (fuel : Nat) (st : TreeState) (nid : NodeId) (n : Node) (s : Val)
    (st' : TreeState)
    (hg : getNode st nid = some n) (ha : n.isAlive = true)
    (hk : n.kind = Kind.model) (hpre : n.preProcessor = none)
    (hobj : isJsObject s = true)
    (happ : applySnapshotToNode (fuel + 1) st nid s = Except.ok st') :
    applyModelChildren fuel st n.children s = Except.ok st'
    ∧ PresV st st'
    ∧ (∀ k0 cid0, (k0, cid0) ∈ n.children → hasKeyJs s k0 = false →
        (∀ kc ∈ n.children, hasKeyJs s kc.1 = true →
          ∀ m, ReachE st cid0 m → ¬ ReachE st kc.2 m) →
        (∀ m, ReachE st cid0 m → getNode st' m = getNode st m)
        ∧ (∀ gfuel, getSnapshotFromNode gfuel st' cid0
            = getSnapshotFromNode gfuel st cid0)) := by
  have hunf : applySnapshotToNode (fuel + 1) st nid s
      = applyModelChildren fuel st n.children s := by
    simp only [applySnapshotToNode, hg, ha, Bool.true_eq_false, if_false, hpre]
    rw [if_pos ⟨hk, hobj⟩]
    rfl
  rw [hunf] at happ
  refine ⟨happ, (applySnapshot_presV fuel).2 st n.children s st' happ, ?_⟩
  intro k0 cid0 hmem hkey0 hdisj
  have hframe : ∀ m, ReachE st cid0 m → getNode st' m = getNode st m := by
    intro m hm
    refine (applySnapshot_frame fuel).2 st n.children s st' happ m ?_
    intro kc hkc hkey2 hr2
    exact hdisj kc hkc hkey2 m hm hr2
  exact ⟨hframe, fun gfuel => getSnapshot_reach_congr gfuel st st' cid0 hframe⟩

/-- A model node 0 with scalar children a = 1 and b = 2, receiving the
object snapshot with only the key a. -/
def c5kid1 : Node :=
  { plainNode with parent := some 0, path := "/a", value := Val.num 1 }

def c5kid2 : Node :=
  { plainNode with parent := some 0, path := "/b", value := Val.num 2 }

def c5model : Node :=
  { plainNode with kind := Kind.model, children := [("a", 1), ("b", 2)] }

def c5state : TreeState :=
  { nodes := [(0, c5model), (1, c5kid1), (2, c5kid2)], registry := [], events := [] }

def c5snap : Val :=
  Val.obj [("a", Val.num 7)]

def c5applied : TreeState :=
  exceptState (applySnapshotToNode 3 c5state 0 c5snap)

theorem c5_model_merge_witness :
    (getNode c5state 0 = some c5model ∧ c5model.isAlive = true
      ∧ c5model.kind = Kind.model ∧ c5model.preProcessor = none
      ∧ isJsObject c5snap = true
      ∧ applySnapshotToNode (2 + 1) c5state 0 c5snap = Except.ok c5applied)
    ∧ (applyModelChildren 2 c5state c5model.children c5snap = Except.ok c5applied
      ∧ PresV c5state c5applied
      ∧ (∀ k0 cid0, (k0, cid0) ∈ c5model.children → hasKeyJs c5snap k0 = false →
          (∀ kc ∈ c5model.children, hasKeyJs c5snap kc.1 = true →
            ∀ m, ReachE c5state cid0 m → ¬ ReachE c5state kc.2 m) →
          (∀ m, ReachE c5state cid0 m → getNode c5applied m = getNode c5state m)
          ∧ (∀ gfuel, getSnapshotFromNode gfuel c5applied cid0
              = getSnapshotFromNode gfuel c5state cid0))) :=
  ⟨⟨rfl, rfl, rfl, rfl, rfl, rfl⟩,
    c5_model_merge 2 c5state 0 c5model c5snap c5applied
      rfl rfl rfl rfl rfl rfl⟩

end JST
